import Mathlib

/-!
# scanner: batch partitioning and upsert passes

A shallow embedding of `scanner.go`.  Keys (`net.IP` values) are an arbitrary
type `IP`; their string form `ip.String()` is a parameter `ipString`.  The
relation `ip_statuses` is a list of `(ip, status)` rows.  `rand.Intn(2)` is an
oracle `draw : Nat → Fin 2` indexed by the number of draws made so far.
-/

namespace Scanner

/-! ## Constants -/

/-- The constant `chunkSize` of the source. The handlers below take the chunk
size as a parameter so that properties can be stated for every value. -/
def chunkSize : Nat := 20000

/-- The array `statuses` of the source, indexed by the result of `rand.Intn(2)`. -/
def statuses : Fin 2 → String
  | 0 => "online"
  | 1 => "offline"

/-! ## The partition loop -/

/-- The Go slice expression `xs[i:j]` for `i ≤ j ≤ len(xs)`. -/
def slice {α : Type} (xs : List α) (i j : Nat) : List α :=
  (xs.take j).drop i

/-- The loop `for i := 0; i < len(ips); i += chunkSize` of
`useBatchImplementationHandler`, started at index `i` with `ipChunks` already
collected. The first argument after `ips` bounds the number of iterations;
`none` means the bound was reached before the loop condition became false.
Indices are natural numbers: the length of a slice of keys is far below the
range of `int`, so `i + chunkSize` does not wrap around. -/
def partitionLoop {α : Type} (M : Nat) (ips : List α) :
    Nat → Nat → List (List α) → Option (List (List α))
  | 0, _, _ => none
  | fuel + 1, i, ipChunks =>
    if i < ips.length then
      let e := if i + M > ips.length then ips.length else i + M
      partitionLoop M ips fuel (i + M) (ipChunks ++ [slice ips i e])
    else
      some ipChunks

/-- The whole partition loop: `i` starts at `0`, `ipChunks` at `nil`. The
iteration bound `len(ips) + 1` is never reached when `M > 0`. -/
def partition {α : Type} (M : Nat) (ips : List α) : Option (List (List α)) :=
  partitionLoop M ips (ips.length + 1) 0 []

/-- The chunk lengths the specification announces for `N` keys and chunk size `M`. -/
def specLengths (M N : Nat) : List Nat :=
  List.replicate (N / M) M ++ (if N % M = 0 then [] else [N % M])

/-! ## Storage: the relation `ip_statuses` -/

/-- A row `(ip, status)` of `ip_statuses`. -/
abbrev Row := String × String

/-- The committed contents of `ip_statuses`. -/
abbrev Storage := List Row

/-- The status stored for key `k`, if any. -/
def statusOf : Storage → String → Option String
  | [], _ => none
  | (k', s') :: rest, k => if k' = k then some s' else statusOf rest k

/-- One proposed row of `INSERT INTO ip_statuses (ip, status) VALUES (k, sIns)
ON CONFLICT ON CONSTRAINT ip_statuses_pkey DO UPDATE SET status = sUpd`: the row
with key `k` gets status `sUpd` when it exists, and `(k, sIns)` is inserted
otherwise. -/
def upsertRow : Storage → String → String → String → Storage
  | [], k, sIns, _ => [(k, sIns)]
  | (k', s') :: rest, k, sIns, sUpd =>
    if k' = k then (k', sUpd) :: rest else (k', s') :: upsertRow rest k sIns sUpd

/-- The proposed rows of a multi-row upsert with `DO UPDATE SET status =
excluded.status`, applied in order. -/
def upsertRows (st : Storage) (rows : List Row) : Storage :=
  rows.foldl (fun acc r => upsertRow acc r.1 r.2 r.2) st

/-- The keys of the stored rows. -/
def keysOf (st : Storage) : List String := st.map Prod.fst

/-- No two rows share a key. -/
def NoDupKeys (st : Storage) : Prop := (keysOf st).Nodup

instance (st : Storage) : Decidable (NoDupKeys st) := by
  unfold NoDupKeys; infer_instance

/-! ## Statements -/

/-- The result of `fmt.Sprintf("($%d,$%d)", a, b)`: one tuple of the `VALUES`
list, kept together with the two parameter numbers it is formatted from. -/
structure Placeholder where
  fst : Nat
  snd : Nat
deriving DecidableEq

/-- The text of a tuple. -/
def Placeholder.text (p : Placeholder) : String :=
  "($" ++ toString p.fst ++ ",$" ++ toString p.snd ++ ")"

/-- The statement text of `useSerialImplementationHandler`. -/
def serialQuery : String :=
  "INSERT INTO ip_statuses (ip, status) VALUES ($1, $2) ON CONFLICT ON CONSTRAINT ip_statuses_pkey DO UPDATE SET status = $3"

/-- The statement text of `useBatchImplementationHandler`:
`fmt.Sprintf("INSERT ... VALUES %s ON CONFLICT ...", strings.Join(placeholders, ","))`. -/
def scanQuery (placeholders : List Placeholder) : String :=
  "INSERT INTO ip_statuses (ip, status) VALUES " ++
    ",".intercalate (placeholders.map Placeholder.text) ++
    " ON CONFLICT ON CONSTRAINT ip_statuses_pkey DO UPDATE SET status = excluded.status"

/-- The argument a positional parameter `$j` refers to: parameters are numbered from 1. -/
def param (args : List String) (j : Nat) : Option String :=
  if j = 0 then none else args[j - 1]?

/-- The rows proposed by a `VALUES` list under an argument list; `none` when a
parameter has no argument. -/
def boundRows : List Placeholder → List String → Option (List Row)
  | [], _ => some []
  | p :: ps, args =>
    match param args p.fst, param args p.snd, boundRows ps args with
    | some k, some s, some rows => some ((k, s) :: rows)
    | _, _, _ => none

/-- Execution of the multi-row upsert on `st`. The statement is an error when a
parameter is unbound or when two proposed rows have the same key (the command
would affect a row a second time). -/
def execUpsert (st : Storage) (placeholders : List Placeholder) (args : List String) :
    Option Storage :=
  match boundRows placeholders args with
  | none => none
  | some rows => if (rows.map Prod.fst).Nodup then some (upsertRows st rows) else none

/-! ## The process state -/

/-- A call on the storage handle `db` or on a transaction `tx`. -/
inductive DbCall
  | exec (query : String) (args : List String)
  | begin
  | txExec (query : String) (args : List String)
  | rollback
  | commit
deriving DecidableEq

/-- What a handler sees and changes: the committed rows, the number of
`rand.Intn` calls made so far, and the storage calls issued so far. -/
structure World where
  rows : Storage
  draws : Nat
  calls : List DbCall
deriving DecidableEq

/-- How a handler ends: it returns, or it calls `log.Fatal`, which prints and
exits the process with status 1. -/
inductive Exit
  | returned
  | fatal
deriving DecidableEq

/-- Which storage call of a chunk reports an error, if any. -/
inductive Fault
  | ok
  | begin
  | exec
  | commit
deriving DecidableEq

/-! ## useSerialImplementationHandler -/

/-- The loop `for _, ip := range ips` of `useSerialImplementationHandler`;
`n` is the number of keys already done, `fails n` says whether `db.Exec` returns
an error for key number `n`. -/
def serialLoop {IP : Type} (ipString : IP → String) (draw : Nat → Fin 2) (fails : Nat → Bool) :
    List IP → Nat → World → Exit × World
  | [], _, w => (Exit.returned, w)
  | ip :: rest, n, w =>
    let status := statuses (draw w.draws)
    let args := [ipString ip, status, status]
    let w1 : World := ⟨w.rows, w.draws + 1, w.calls ++ [DbCall.exec serialQuery args]⟩
    if fails n then (Exit.fatal, w1)
    else
      serialLoop ipString draw fails rest (n + 1)
        ⟨upsertRow w1.rows (ipString ip) status status, w1.draws, w1.calls⟩

/-- The handler `useSerialImplementationHandler(ips)`. -/
def useSerialImplementationHandler {IP : Type} (ipString : IP → String) (draw : Nat → Fin 2)
    (fails : Nat → Bool) (ips : List IP) (w : World) : Exit × World :=
  serialLoop ipString draw fails ips 0 w

/-! ## useBatchImplementationHandler -/

/-- The function-level variables `placeholders` and `values`. -/
structure BatchVars where
  placeholders : List Placeholder
  values : List String
deriving DecidableEq

/-- The loop `for indx, ip := range ipChunk`; the last argument is the number
of `rand.Intn` calls made so far, which is returned updated. -/
def buildLoop {IP : Type} (ipString : IP → String) (draw : Nat → Fin 2) :
    List IP → Nat → BatchVars → Nat → BatchVars × Nat
  | [], _, vars, d => (vars, d)
  | ip :: rest, indx, vars, d =>
    let status := statuses (draw d)
    buildLoop ipString draw rest (indx + 1)
      ⟨vars.placeholders ++ [⟨indx * 2 + 1, indx * 2 + 2⟩],
       vars.values ++ [ipString ip, status]⟩ (d + 1)

/-- The statement and arguments built for one chunk: both variables are reset
to `nil` before the inner loop runs. -/
def buildChunk {IP : Type} (ipString : IP → String) (draw : Nat → Fin 2)
    (_vars : BatchVars) (ipChunk : List IP) (d : Nat) : BatchVars × Nat :=
  buildLoop ipString draw ipChunk 0 ⟨[], []⟩ d

/-- One iteration of `for _, ipChunk := range ipChunks`: build the statement,
`db.Begin`, `tx.Exec` (with `tx.Rollback` on error), `tx.Commit`. Every error
ends in `log.Fatal`. The rows become visible only when the commit succeeds. -/
def chunkBody {IP : Type} (ipString : IP → String) (draw : Nat → Fin 2) (f : Fault)
    (vars : BatchVars) (w : World) (ipChunk : List IP) : Exit × BatchVars × World :=
  let built := buildChunk ipString draw vars ipChunk w.draws
  let vars1 := built.1
  let calls1 := w.calls ++ [DbCall.begin]
  if f = Fault.begin then (Exit.fatal, vars1, ⟨w.rows, built.2, calls1⟩)
  else
    let calls2 := calls1 ++ [DbCall.txExec (scanQuery vars1.placeholders) vars1.values]
    match (if f = Fault.exec then none else execUpsert w.rows vars1.placeholders vars1.values) with
    | none => (Exit.fatal, vars1, ⟨w.rows, built.2, calls2 ++ [DbCall.rollback]⟩)
    | some staged =>
      if f = Fault.commit then (Exit.fatal, vars1, ⟨w.rows, built.2, calls2 ++ [DbCall.commit]⟩)
      else (Exit.returned, vars1, ⟨staged, built.2, calls2 ++ [DbCall.commit]⟩)

/-- The loop `for _, ipChunk := range ipChunks`; `n` is the number of chunks
already done and `fault n` the error, if any, met by chunk number `n`. -/
def chunkLoop {IP : Type} (ipString : IP → String) (draw : Nat → Fin 2) (fault : Nat → Fault) :
    List (List IP) → Nat → BatchVars → World → Exit × World
  | [], _, _, w => (Exit.returned, w)
  | ipChunk :: rest, n, vars, w =>
    match chunkBody ipString draw (fault n) vars w ipChunk with
    | (Exit.fatal, _, w1) => (Exit.fatal, w1)
    | (Exit.returned, vars1, w1) => chunkLoop ipString draw fault rest (n + 1) vars1 w1

/-- The handler `useBatchImplementationHandler(processorId, processorCount, ips)`
with chunk size `M`; the two processor numbers are only printed. `none` means
that the partition loop does not terminate. -/
def useBatchImplementationHandler {IP : Type} (M : Nat) (ipString : IP → String)
    (draw : Nat → Fin 2) (fault : Nat → Fault) (ips : List IP) (w : World) :
    Option (Exit × World) :=
  match partition M ips with
  | none => none
  | some ipChunks => some (chunkLoop ipString draw fault ipChunks 0 ⟨[], []⟩ w)

/-! ## main: the concurrent strategies -/

/-- A slice value: the offset of its first element in the backing array, and
its length. Assigning a slice copies this header, not the array. -/
structure Slice where
  off : Nat
  len : Nat
deriving DecidableEq

/-- The elements seen through a slice of the backing array `mem`. -/
def Slice.read {IP : Type} (s : Slice) (mem : List IP) : List IP :=
  (mem.drop s.off).take s.len

/-- The assignment `s[i], s[j] = s[j], s[i]` on the backing array `mem`. -/
def Slice.swap {IP : Type} (s : Slice) (i j : Nat) (mem : List IP) : List IP :=
  match mem[s.off + i]?, mem[s.off + j]? with
  | some a, some b => (mem.set (s.off + i) b).set (s.off + j) a
  | _, _ => mem

/-- The loop of `rand.Shuffle`: for `i` from `n - 1` down to `1`, swap `i` with
an index `j` drawn in `[0, i]`, here `pick i % (i + 1)`. -/
def shuffleLoop {σ : Type} (pick : Nat → Nat) (swap : Nat → Nat → σ → σ) : Nat → σ → σ
  | 0, s => s
  | i + 1, s => shuffleLoop pick swap i (swap (i + 1) (pick (i + 1) % (i + 2)) s)

/-- The call `rand.Shuffle(n, swap)`. -/
def shuffle {σ : Type} (pick : Nat → Nat) (n : Nat) (swap : Nat → Nat → σ → σ) (s : σ) : σ :=
  shuffleLoop pick swap (n - 1) s

/-- Case 3 of `main`: the key sequences passed to the two
`useBatchImplementationHandler` calls, `data` being the backing array of `ips`. -/
def mainCase3 {IP : Type} (data : List IP) : List IP × List IP :=
  let ips : Slice := ⟨0, data.length⟩
  (ips.read data, ips.read data)

/-- Case 4 of `main`: `ips2 := ips`, then `rand.Shuffle` swapping elements of
`ips2`, then the two handler calls on `ips` and on `ips2`. -/
def mainCase4 {IP : Type} (pick : Nat → Nat) (data : List IP) : List IP × List IP :=
  let ips : Slice := ⟨0, data.length⟩
  let ips2 : Slice := ips
  let mem := shuffle pick ips2.len ips2.swap data
  (ips.read mem, ips2.read mem)

/-- A goroutine running the chunk loop of `useBatchImplementationHandler`: the
chunks still to process, the number of chunks done, the two variables, and the
number of draws it has made from its own oracle. -/
structure Goroutine (IP : Type) where
  chunks : List (List IP)
  n : Nat
  vars : BatchVars
  draws : Nat
deriving DecidableEq

/-- The process under strategy 3 or 4: the shared storage and its call log, the
two goroutines, and whether the process has exited. -/
structure Proc (IP : Type) where
  rows : Storage
  calls : List DbCall
  g1 : Goroutine IP
  g2 : Goroutine IP
  exited : Bool
deriving DecidableEq

/-- One chunk transaction of a goroutine, run as one atomic step on the shared
storage; a goroutine with no chunk left has returned and does nothing. -/
def Goroutine.step {IP : Type} (ipString : IP → String) (draw : Nat → Fin 2)
    (fault : Nat → Fault) (g : Goroutine IP) (rows : Storage) (calls : List DbCall) :
    Exit × Goroutine IP × Storage × List DbCall :=
  match g.chunks with
  | [] => (Exit.returned, g, rows, calls)
  | c :: rest =>
    let r := chunkBody ipString draw (fault g.n) g.vars ⟨rows, g.draws, calls⟩ c
    (r.1, ⟨rest, g.n + 1, r.2.1, r.2.2.draws⟩, r.2.2.rows, r.2.2.calls)

/-- One scheduling step: the first or the second goroutine runs its next chunk.
`log.Fatal` in either goroutine exits the process, after which nothing runs. -/
def Proc.step {IP : Type} (ipString : IP → String) (draw1 draw2 : Nat → Fin 2)
    (fault1 fault2 : Nat → Fault) (p : Proc IP) (first : Bool) : Proc IP :=
  if p.exited then p
  else if first then
    let r := p.g1.step ipString draw1 fault1 p.rows p.calls
    ⟨r.2.2.1, r.2.2.2, r.2.1, p.g2, decide (r.1 = Exit.fatal)⟩
  else
    let r := p.g2.step ipString draw2 fault2 p.rows p.calls
    ⟨r.2.2.1, r.2.2.2, p.g1, r.2.1, decide (r.1 = Exit.fatal)⟩

/-- A run of the process under a schedule. -/
def Proc.run {IP : Type} (ipString : IP → String) (draw1 draw2 : Nat → Fin 2)
    (fault1 fault2 : Nat → Fault) : Proc IP → List Bool → Proc IP
  | p, [] => p
  | p, b :: sched =>
    Proc.run ipString draw1 draw2 fault1 fault2
      (Proc.step ipString draw1 draw2 fault1 fault2 p b) sched

/-- The two statements `go useBatchImplementationHandler(...)` of cases 3 and 4:
each goroutine partitions the sequence it was given. -/
def launch {IP : Type} (M : Nat) (ips1 ips2 : List IP) (rows : Storage) : Option (Proc IP) :=
  match partition M ips1, partition M ips2 with
  | some cs1, some cs2 => some ⟨rows, [], ⟨cs1, 0, ⟨[], []⟩, 0⟩, ⟨cs2, 0, ⟨[], []⟩, 0⟩, false⟩
  | _, _ => none

/-! ## What a pass is expected to write -/

/-- The records of a pass over `ips` that starts after `d` draws: key number `j`
is paired with the status selected by draw number `d + j`. -/
def records {IP : Type} (ipString : IP → String) (draw : Nat → Fin 2) : Nat → List IP → List Row
  | _, [] => []
  | d, ip :: rest => (ipString ip, statuses (draw d)) :: records ipString draw (d + 1) rest

/-- The argument list `k0, s0, k1, s1, ...` of a list of records. -/
def flatArgs : List Row → List String
  | [] => []
  | r :: rest => r.1 :: r.2 :: flatArgs rest

/-- The tuples `($2i+1,$2i+2)` for `i = indx, ..., indx + n - 1`. -/
def tuplesFrom : Nat → Nat → List Placeholder
  | _, 0 => []
  | indx, n + 1 => ⟨indx * 2 + 1, indx * 2 + 2⟩ :: tuplesFrom (indx + 1) n

/-- The storage calls of one chunk that starts after `d` draws and meets no error. -/
def chunkCalls {IP : Type} (ipString : IP → String) (draw : Nat → Fin 2) (d : Nat)
    (ipChunk : List IP) : List DbCall :=
  [DbCall.begin,
   DbCall.txExec (scanQuery (tuplesFrom 0 ipChunk.length)) (flatArgs (records ipString draw d ipChunk)),
   DbCall.commit]

/-- The storage calls of a sequence of chunks that meets no error. -/
def passCalls {IP : Type} (ipString : IP → String) (draw : Nat → Fin 2) :
    Nat → List (List IP) → List DbCall
  | _, [] => []
  | d, c :: cs => chunkCalls ipString draw d c ++ passCalls ipString draw (d + c.length) cs

/-- The storage calls of a serial pass that meets no error. -/
def serialCalls (rows : List Row) : List DbCall :=
  rows.map (fun r => DbCall.exec serialQuery [r.1, r.2, r.2])

/-- The state of the shared storage while two workers write: every key either
has the status it had in `rows0` and was written by neither worker so far, or
has a status that one of the workers assigned to it; `d1` and `d2` are the keys
the workers have written so far. -/
def Settled {IP : Type} (ipString : IP → String) (draw1 draw2 : Nat → Fin 2)
    (rows0 rows : Storage) (d1 d2 : List IP) : Prop :=
  ∀ k, (statusOf rows k = statusOf rows0 k ∧ k ∉ d1.map ipString ∧ k ∉ d2.map ipString) ∨
    (∃ s, statusOf rows k = some s ∧
      ((k, s) ∈ records ipString draw1 0 d1 ∨ (k, s) ∈ records ipString draw2 0 d2))

/-- The invariant of a run in which no storage call fails: the process has not
exited, each goroutine has `d` behind it and the rest of its sequence ahead, and
the storage is settled. -/
def RunInv {IP : Type} (ipString : IP → String) (draw1 draw2 : Nat → Fin 2)
    (ips1 ips2 : List IP) (rows0 : Storage) (p : Proc IP) (d1 d2 : List IP) : Prop :=
  p.exited = false ∧
    d1 ++ p.g1.chunks.flatten = ips1 ∧ p.g1.draws = d1.length ∧
    d2 ++ p.g2.chunks.flatten = ips2 ∧ p.g2.draws = d2.length ∧
    Settled ipString draw1 draw2 rows0 p.rows d1 d2

/-- Two goroutines that each have the single chunk `["K1"]` to write on an
empty storage: the process launched for the key sequence `["K1"]`. -/
def twoWorkersOneKey : Proc String :=
  ⟨[], [], ⟨[["K1"]], 0, ⟨[], []⟩, 0⟩, ⟨[["K1"]], 0, ⟨[], []⟩, 0⟩, false⟩

/-- Both goroutines have processed all their chunks. -/
def Proc.finished {IP : Type} (p : Proc IP) : Prop :=
  p.g1.chunks = [] ∧ p.g2.chunks = []

/-! ## Lemmas on the partition loop -/

theorem slice_length {α : Type} (xs : List α) (i j : Nat) (hj : j ≤ xs.length) :
    (slice xs i j).length = j - i := by
  simp [slice, List.length_drop, List.length_take, Nat.min_eq_left hj]

theorem slice_eq_take_drop {α : Type} (xs : List α) (i j : Nat) :
    slice xs i j = (xs.drop i).take (j - i) := by
  simp [slice, List.drop_take]

theorem specLengths_zero (M : Nat) : specLengths M 0 = [] := by
  simp [specLengths]

theorem specLengths_small (M r : Nat) (h0 : 0 < r) (h : r < M) :
    specLengths M r = [r] := by
  have h1 : r / M = 0 := Nat.div_eq_of_lt h
  have h2 : r % M = r := Nat.mod_eq_of_lt h
  have h3 : r ≠ 0 := by omega
  simp [specLengths, h1, h2, h3]

theorem specLengths_step (M r : Nat) (hM : 0 < M) :
    specLengths M (r + M) = M :: specLengths M r := by
  have h1 : (r + M) / M = r / M + 1 := Nat.add_div_right r hM
  have h2 : (r + M) % M = r % M := Nat.add_mod_right r M
  simp [specLengths, h1, h2, List.replicate_succ]

/-- The loop invariant of the partition loop: from index `i` it returns, and
the result extends `ipChunks` by chunks that cover `ips.drop i` in order and
have the announced lengths. -/
theorem partitionLoop_spec {α : Type} (M : Nat) (hM : 0 < M) (ips : List α) :
    ∀ (fuel i : Nat) (acc : List (List α)), ips.length - i < fuel →
      ∃ cs, partitionLoop M ips fuel i acc = some (acc ++ cs) ∧
        cs.flatten = ips.drop i ∧
        cs.map List.length = specLengths M (ips.length - i) ∧
        (∀ c ∈ cs, c.Sublist ips) := by
  intro fuel
  induction fuel with
  | zero => intro i acc h; omega
  | succ fuel ih =>
    intro i acc h
    by_cases hi : i < ips.length
    · have hfuel : ips.length - (i + M) < fuel := by omega
      obtain ⟨cs, hcs, hjoin, hlen, hsub⟩ :=
        ih (i + M) (acc ++ [slice ips i (if i + M > ips.length then ips.length else i + M)]) hfuel
      refine ⟨slice ips i (if i + M > ips.length then ips.length else i + M) :: cs, ?_, ?_, ?_, ?_⟩
      · simp only [partitionLoop, hi, if_true]
        rw [hcs]; simp
      · rw [List.flatten_cons, hjoin, slice_eq_take_drop]
        by_cases hover : i + M > ips.length
        · simp only [hover, if_true]
          have h1 : List.drop (i + M) ips = [] := List.drop_eq_nil_of_le (by omega)
          have h2 : List.take (ips.length - i) (List.drop i ips) = List.drop i ips :=
            List.take_of_length_le (by simp)
          rw [h1, h2]; simp
        · simp only [hover, if_false]
          have h1 : i + M - i = M := by omega
          rw [h1, ← List.drop_drop, List.take_append_drop]
      · rw [List.map_cons, hlen]
        by_cases hover : i + M > ips.length
        · simp only [hover, if_true]
          rw [slice_length _ _ _ (le_refl _)]
          have h1 : ips.length - (i + M) = 0 := by omega
          rw [h1, specLengths_zero, specLengths_small M _ (by omega) (by omega)]
        · simp only [hover, if_false]
          rw [slice_length _ _ _ (by omega)]
          have h1 : i + M - i = M := by omega
          have h2 : ips.length - i = (ips.length - (i + M)) + M := by omega
          rw [h1, h2, specLengths_step _ _ hM]
      · intro c hc
        rcases List.mem_cons.mp hc with rfl | hc
        · rw [slice]
          exact (List.drop_sublist _ _).trans (List.take_sublist _ _)
        · exact hsub c hc
    · refine ⟨[], ?_, ?_, ?_, ?_⟩
      · simp [partitionLoop, hi]
      · simp [List.drop_eq_nil_of_le (Nat.le_of_not_lt hi)]
      · have h1 : ips.length - i = 0 := by omega
        rw [h1, specLengths_zero]; rfl
      · intro c hc; cases hc

/-- The partition loop returns for every positive chunk size. -/
theorem partition_spec {α : Type} (M : Nat) (hM : 0 < M) (ips : List α) :
    ∃ cs, partition M ips = some cs ∧ cs.flatten = ips ∧
      cs.map List.length = specLengths M ips.length ∧ (∀ c ∈ cs, c.Sublist ips) := by
  obtain ⟨cs, h1, h2, h3, h4⟩ := partitionLoop_spec M hM ips (ips.length + 1) 0 [] (by omega)
  exact ⟨cs, by simpa [partition] using h1, by simpa using h2, by simpa using h3, h4⟩

/-! ## Lemmas on storage -/

theorem statusOf_upsertRow_self (st : Storage) (k s : String) :
    statusOf (upsertRow st k s s) k = some s := by
  induction st with
  | nil => simp [upsertRow, statusOf]
  | cons r rest ih =>
    obtain ⟨k', s'⟩ := r
    by_cases h : k' = k
    · simp [upsertRow, statusOf, h]
    · simp [upsertRow, statusOf, h, ih]

theorem statusOf_upsertRow_other (st : Storage) (k a b k' : String) (h : k' ≠ k) :
    statusOf (upsertRow st k a b) k' = statusOf st k' := by
  induction st with
  | nil => simp [upsertRow, statusOf, Ne.symm h]
  | cons r rest ih =>
    obtain ⟨k0, s0⟩ := r
    by_cases h0 : k0 = k
    · subst h0
      simp [upsertRow, statusOf, Ne.symm h]
    · by_cases h1 : k0 = k'
      · subst h1
        simp [upsertRow, statusOf, h0]
      · simp [upsertRow, statusOf, h0, h1, ih]

theorem keysOf_upsertRow (st : Storage) (k a b : String) :
    keysOf (upsertRow st k a b) = if k ∈ keysOf st then keysOf st else keysOf st ++ [k] := by
  induction st with
  | nil => simp [upsertRow, keysOf]
  | cons r rest ih =>
    obtain ⟨k0, s0⟩ := r
    by_cases h0 : k0 = k
    · subst h0
      simp [upsertRow, keysOf]
    · have h0' : ¬ k = k0 := fun e => h0 e.symm
      simp only [keysOf] at ih
      by_cases hm : k ∈ List.map Prod.fst rest
      · simp [upsertRow, keysOf, h0, hm, ih]
      · simp only [upsertRow, keysOf, h0, if_false, List.map_cons, ih, hm, List.mem_cons, h0',
          or_self, List.cons_append]

theorem mem_keysOf_upsertRow (st : Storage) (k a b k' : String) :
    k' ∈ keysOf (upsertRow st k a b) ↔ k' ∈ keysOf st ∨ k' = k := by
  rw [keysOf_upsertRow]
  by_cases hm : k ∈ keysOf st
  · simp only [hm, if_true]
    constructor
    · intro h; exact Or.inl h
    · rintro (h | h)
      · exact h
      · exact h ▸ hm
  · simp [hm]

theorem NoDupKeys_upsertRow (st : Storage) (k a b : String) (h : NoDupKeys st) :
    NoDupKeys (upsertRow st k a b) := by
  unfold NoDupKeys at *
  rw [keysOf_upsertRow]
  by_cases hm : k ∈ keysOf st
  · simpa [hm] using h
  · simp only [hm, if_false]
    exact List.Nodup.append h (List.nodup_singleton k) (by
      intro x hx hx'
      rw [List.mem_singleton] at hx'
      exact hm (hx' ▸ hx))

theorem upsertRow_of_statusOf (st : Storage) (k a s : String) (h : statusOf st k = some s) :
    upsertRow st k a s = st := by
  induction st with
  | nil => simp [statusOf] at h
  | cons r rest ih =>
    obtain ⟨k0, s0⟩ := r
    by_cases h0 : k0 = k
    · simp only [statusOf, h0, if_true, Option.some.injEq] at h
      simp [upsertRow, h0, h]
    · simp only [statusOf, h0, if_false] at h
      simp [upsertRow, h0, ih h]

theorem mem_keysOf_iff_statusOf (st : Storage) (k : String) :
    k ∈ keysOf st ↔ ∃ s, statusOf st k = some s := by
  induction st with
  | nil => simp [keysOf, statusOf]
  | cons r rest ih =>
    obtain ⟨k0, s0⟩ := r
    by_cases h0 : k0 = k
    · simp [keysOf, statusOf, h0]
    · have h0' : ¬ k = k0 := fun e => h0 e.symm
      simp only [keysOf] at ih
      simp [keysOf, statusOf, h0, h0', ih]

theorem upsertRows_nil (st : Storage) : upsertRows st [] = st := rfl

theorem upsertRows_cons (st : Storage) (r : Row) (rows : List Row) :
    upsertRows st (r :: rows) = upsertRows (upsertRow st r.1 r.2 r.2) rows := rfl

theorem upsertRows_append (st : Storage) (xs ys : List Row) :
    upsertRows st (xs ++ ys) = upsertRows (upsertRows st xs) ys := by
  simp [upsertRows, List.foldl_append]

theorem statusOf_upsertRows_not_mem (rows : List Row) :
    ∀ (st : Storage) (k : String), k ∉ rows.map Prod.fst →
      statusOf (upsertRows st rows) k = statusOf st k := by
  induction rows with
  | nil => intro st k _; rfl
  | cons r rows ih =>
    intro st k hk
    simp only [List.map_cons, List.mem_cons, not_or] at hk
    rw [upsertRows_cons, ih _ _ hk.2, statusOf_upsertRow_other _ _ _ _ _ hk.1]

theorem statusOf_upsertRows_mem (rows : List Row) :
    ∀ (st : Storage) (k s : String), (rows.map Prod.fst).Nodup → (k, s) ∈ rows →
      statusOf (upsertRows st rows) k = some s := by
  induction rows with
  | nil => intro st k s _ h; cases h
  | cons r rows ih =>
    intro st k s hnd hmem
    simp only [List.map_cons, List.nodup_cons] at hnd
    rw [upsertRows_cons]
    rcases List.mem_cons.mp hmem with rfl | hmem
    · rw [statusOf_upsertRows_not_mem _ _ _ hnd.1]
      exact statusOf_upsertRow_self _ _ _
    · exact ih _ _ _ hnd.2 hmem

theorem NoDupKeys_upsertRows (rows : List Row) :
    ∀ (st : Storage), NoDupKeys st → NoDupKeys (upsertRows st rows) := by
  induction rows with
  | nil => intro st h; exact h
  | cons r rows ih =>
    intro st h
    rw [upsertRows_cons]
    exact ih _ (NoDupKeys_upsertRow _ _ _ _ h)

theorem mem_keysOf_upsertRows (rows : List Row) :
    ∀ (st : Storage) (k : String),
      k ∈ keysOf (upsertRows st rows) ↔ k ∈ keysOf st ∨ k ∈ rows.map Prod.fst := by
  induction rows with
  | nil => intro st k; simp [upsertRows_nil]
  | cons r rows ih =>
    intro st k
    rw [upsertRows_cons, ih, mem_keysOf_upsertRow]
    simp only [List.map_cons, List.mem_cons]
    tauto

theorem upsertRows_of_statusOf (rows : List Row) :
    ∀ (st : Storage), (∀ r ∈ rows, statusOf st r.1 = some r.2) → upsertRows st rows = st := by
  induction rows with
  | nil => intro st _; rfl
  | cons r rows ih =>
    intro st h
    rw [upsertRows_cons, upsertRow_of_statusOf _ _ _ _ (h r (List.mem_cons_self _ _))]
    exact ih st (fun r' hr' => h r' (List.mem_cons_of_mem _ hr'))

theorem upsertRows_idem (st : Storage) (rows : List Row) (hnd : (rows.map Prod.fst).Nodup) :
    upsertRows (upsertRows st rows) rows = upsertRows st rows := by
  apply upsertRows_of_statusOf
  intro r hr
  exact statusOf_upsertRows_mem rows st r.1 r.2 hnd hr

/-! ## Lemmas on the statement built for a chunk -/

theorem records_length {IP : Type} (ipString : IP → String) (draw : Nat → Fin 2) (ips : List IP) :
    ∀ d, (records ipString draw d ips).length = ips.length := by
  induction ips with
  | nil => intro d; rfl
  | cons ip rest ih => intro d; simp [records, ih]

theorem records_keys {IP : Type} (ipString : IP → String) (draw : Nat → Fin 2) (ips : List IP) :
    ∀ d, (records ipString draw d ips).map Prod.fst = ips.map ipString := by
  induction ips with
  | nil => intro d; rfl
  | cons ip rest ih => intro d; simp [records, ih]

theorem records_append {IP : Type} (ipString : IP → String) (draw : Nat → Fin 2)
    (xs ys : List IP) :
    ∀ d, records ipString draw d (xs ++ ys) =
      records ipString draw d xs ++ records ipString draw (d + xs.length) ys := by
  induction xs with
  | nil => intro d; simp [records]
  | cons x xs ih =>
    intro d
    have h : d + 1 + xs.length = d + (xs.length + 1) := by omega
    show records ipString draw d (x :: (xs ++ ys)) = _
    rw [records, ih, h]
    simp [records]

theorem records_getElem? {IP : Type} (ipString : IP → String) (draw : Nat → Fin 2)
    (ips : List IP) :
    ∀ d j, (records ipString draw d ips)[j]? =
      (ips[j]?).map (fun ip => (ipString ip, statuses (draw (d + j)))) := by
  induction ips with
  | nil => intro d j; simp [records]
  | cons ip rest ih =>
    intro d j
    cases j with
    | zero => simp [records]
    | succ j =>
      simp only [records, List.getElem?_cons_succ, ih]
      have h : d + 1 + j = d + (j + 1) := by omega
      rw [h]

theorem flatArgs_length (rows : List Row) : (flatArgs rows).length = 2 * rows.length := by
  induction rows with
  | nil => rfl
  | cons r rest ih => simp only [flatArgs, List.length_cons, ih]; omega

theorem flatArgs_append (xs ys : List Row) : flatArgs (xs ++ ys) = flatArgs xs ++ flatArgs ys := by
  induction xs with
  | nil => rfl
  | cons r rest ih => simp [flatArgs, ih]

theorem flatArgs_getElem?_even (rows : List Row) :
    ∀ i, (flatArgs rows)[2 * i]? = (rows[i]?).map Prod.fst := by
  induction rows with
  | nil => intro i; simp [flatArgs]
  | cons r rest ih =>
    intro i
    cases i with
    | zero => simp [flatArgs]
    | succ i =>
      have h : 2 * (i + 1) = 2 * i + 1 + 1 := by omega
      rw [h]
      simp only [flatArgs, List.getElem?_cons_succ, ih]

theorem flatArgs_getElem?_odd (rows : List Row) :
    ∀ i, (flatArgs rows)[2 * i + 1]? = (rows[i]?).map Prod.snd := by
  induction rows with
  | nil => intro i; simp [flatArgs]
  | cons r rest ih =>
    intro i
    cases i with
    | zero => simp [flatArgs]
    | succ i =>
      have h : 2 * (i + 1) + 1 = (2 * i + 1) + 1 + 1 := by omega
      rw [h]
      simp only [flatArgs, List.getElem?_cons_succ, ih]

theorem tuplesFrom_length (n : Nat) : ∀ indx, (tuplesFrom indx n).length = n := by
  induction n with
  | zero => intro indx; rfl
  | succ n ih => intro indx; simp [tuplesFrom, ih]

theorem tuplesFrom_succ_last (n : Nat) :
    ∀ indx, tuplesFrom indx (n + 1) =
      tuplesFrom indx n ++ [⟨(indx + n) * 2 + 1, (indx + n) * 2 + 2⟩] := by
  induction n with
  | zero => intro indx; simp [tuplesFrom]
  | succ n ih =>
    intro indx
    rw [tuplesFrom, ih (indx + 1)]
    have h : indx + 1 + n = indx + (n + 1) := by omega
    simp [tuplesFrom, h]

theorem tuplesFrom_getElem? (n : Nat) :
    ∀ indx i, i < n →
      (tuplesFrom indx n)[i]? = some ⟨(indx + i) * 2 + 1, (indx + i) * 2 + 2⟩ := by
  induction n with
  | zero => intro indx i h; omega
  | succ n ih =>
    intro indx i h
    cases i with
    | zero => simp [tuplesFrom]
    | succ i =>
      simp only [tuplesFrom, List.getElem?_cons_succ]
      rw [ih (indx + 1) i (by omega)]
      have h1 : indx + 1 + i = indx + (i + 1) := by omega
      rw [h1]

/-- The inner loop appends one tuple and two arguments per key. -/
theorem buildLoop_eq {IP : Type} (ipString : IP → String) (draw : Nat → Fin 2)
    (ipChunk : List IP) :
    ∀ (indx : Nat) (vars : BatchVars) (d : Nat),
      buildLoop ipString draw ipChunk indx vars d =
        (⟨vars.placeholders ++ tuplesFrom indx ipChunk.length,
          vars.values ++ flatArgs (records ipString draw d ipChunk)⟩, d + ipChunk.length) := by
  induction ipChunk with
  | nil => intro indx vars d; simp [buildLoop, tuplesFrom, flatArgs, records]
  | cons ip rest ih =>
    intro indx vars d
    simp only [buildLoop, ih, tuplesFrom, records, flatArgs, List.length_cons, List.append_assoc,
      List.singleton_append, List.cons_append, List.nil_append]
    have h : d + 1 + rest.length = d + (rest.length + 1) := by omega
    rw [h]

theorem buildChunk_eq {IP : Type} (ipString : IP → String) (draw : Nat → Fin 2)
    (vars : BatchVars) (ipChunk : List IP) (d : Nat) :
    buildChunk ipString draw vars ipChunk d =
      (⟨tuplesFrom 0 ipChunk.length, flatArgs (records ipString draw d ipChunk)⟩,
        d + ipChunk.length) := by
  simp [buildChunk, buildLoop_eq]

/-- Tuple number `i` of a chunk's statement binds record number `i`. -/
theorem boundRows_tuplesFrom (recs : List Row) :
    ∀ (indx : Nat) (pre : List String), pre.length = indx * 2 →
      boundRows (tuplesFrom indx recs.length) (pre ++ flatArgs recs) = some recs := by
  induction recs with
  | nil => intro indx pre _; simp [tuplesFrom, boundRows]
  | cons r rest ih =>
    intro indx pre hpre
    have hrec := ih (indx + 1) (pre ++ [r.1, r.2]) (by simp [hpre]; omega)
    have hargs : pre ++ [r.1, r.2] ++ flatArgs rest = pre ++ flatArgs (r :: rest) := by
      simp [flatArgs]
    rw [hargs] at hrec
    have h1 : param (pre ++ flatArgs (r :: rest)) (indx * 2 + 1) = some r.1 := by
      have h3 : indx * 2 + 1 - 1 = pre.length := by omega
      simp only [param, h3, flatArgs]
      rw [List.getElem?_append_right (le_refl _)]
      simp
    have h2 : param (pre ++ flatArgs (r :: rest)) (indx * 2 + 2) = some r.2 := by
      have h3 : indx * 2 + 2 - 1 = pre.length + 1 := by omega
      simp only [param, h3, flatArgs]
      rw [List.getElem?_append_right (by omega)]
      simp
    simp only [List.length_cons, tuplesFrom, boundRows, h1, h2, hrec]

theorem execUpsert_built {IP : Type} (ipString : IP → String) (draw : Nat → Fin 2)
    (st : Storage) (ipChunk : List IP) (d : Nat) :
    execUpsert st (tuplesFrom 0 ipChunk.length) (flatArgs (records ipString draw d ipChunk)) =
      if (ipChunk.map ipString).Nodup then some (upsertRows st (records ipString draw d ipChunk))
      else none := by
  have h := boundRows_tuplesFrom (records ipString draw d ipChunk) 0 [] (by simp)
  rw [records_length] at h
  simp only [List.nil_append] at h
  simp only [execUpsert, h, records_keys]

/-! ## Lemmas on the handlers -/

/-- A chunk with pairwise distinct keys that meets no error is committed whole. -/
theorem chunkBody_ok {IP : Type} (ipString : IP → String) (draw : Nat → Fin 2)
    (vars : BatchVars) (w : World) (c : List IP) (hnd : (c.map ipString).Nodup) :
    chunkBody ipString draw Fault.ok vars w c =
      (Exit.returned,
        ⟨tuplesFrom 0 c.length, flatArgs (records ipString draw w.draws c)⟩,
        ⟨upsertRows w.rows (records ipString draw w.draws c), w.draws + c.length,
          w.calls ++ chunkCalls ipString draw w.draws c⟩) := by
  simp [chunkBody, buildChunk_eq, execUpsert_built, hnd, chunkCalls]

/-- A chunk that meets an error, from the storage calls or from a repeated key,
ends in `log.Fatal` with the committed rows untouched and one `db.Begin` issued. -/
theorem chunkBody_fail {IP : Type} (ipString : IP → String) (draw : Nat → Fin 2)
    (f : Fault) (vars : BatchVars) (w : World) (c : List IP)
    (h : f ≠ Fault.ok ∨ ¬ (c.map ipString).Nodup) :
    (chunkBody ipString draw f vars w c).1 = Exit.fatal ∧
      (chunkBody ipString draw f vars w c).2.2.rows = w.rows ∧
      (chunkBody ipString draw f vars w c).2.2.calls.count DbCall.begin =
        w.calls.count DbCall.begin + 1 := by
  by_cases hnd : (c.map ipString).Nodup
  · cases f with
    | ok => exact absurd rfl (h.resolve_right (fun hn => hn hnd))
    | begin => simp [chunkBody, buildChunk_eq]
    | exec => simp [chunkBody, buildChunk_eq, List.count_append, List.count_cons]
    | commit =>
      simp [chunkBody, buildChunk_eq, execUpsert_built, hnd, List.count_append, List.count_cons]
  · cases f with
    | ok =>
      simp [chunkBody, buildChunk_eq, execUpsert_built, hnd, List.count_append, List.count_cons]
    | begin => simp [chunkBody, buildChunk_eq]
    | exec => simp [chunkBody, buildChunk_eq, List.count_append, List.count_cons]
    | commit =>
      simp [chunkBody, buildChunk_eq, execUpsert_built, hnd, List.count_append, List.count_cons]

theorem passCalls_count_begin {IP : Type} (ipString : IP → String) (draw : Nat → Fin 2)
    (cs : List (List IP)) :
    ∀ d, (passCalls ipString draw d cs).count DbCall.begin = cs.length := by
  induction cs with
  | nil => intro d; rfl
  | cons c cs ih =>
    intro d
    simp [passCalls, chunkCalls, List.count_append, List.count_cons, ih]

/-- Chunks that meet no error are committed one after the other, and the loop
goes on with the chunks that follow. -/
theorem chunkLoop_append {IP : Type} (ipString : IP → String) (draw : Nat → Fin 2)
    (fault : Nat → Fault) (post : List (List IP)) (pre : List (List IP)) :
    ∀ (n : Nat) (vars : BatchVars) (w : World),
      (∀ j, j < pre.length → fault (n + j) = Fault.ok) →
      (∀ c ∈ pre, (c.map ipString).Nodup) →
      ∃ vars1, chunkLoop ipString draw fault (pre ++ post) n vars w =
        chunkLoop ipString draw fault post (n + pre.length) vars1
          ⟨upsertRows w.rows (records ipString draw w.draws pre.flatten),
            w.draws + pre.flatten.length,
            w.calls ++ passCalls ipString draw w.draws pre⟩ := by
  induction pre with
  | nil =>
    intro n vars w _ _
    exact ⟨vars, by simp [records, passCalls, upsertRows_nil]⟩
  | cons c pre ih =>
    intro n vars w hf hnd
    have hf0 : fault n = Fault.ok := by simpa using hf 0 (by simp)
    have hc : (c.map ipString).Nodup := hnd c (List.mem_cons_self _ _)
    obtain ⟨vars1, h1⟩ := ih (n + 1)
      ⟨tuplesFrom 0 c.length, flatArgs (records ipString draw w.draws c)⟩
      ⟨upsertRows w.rows (records ipString draw w.draws c), w.draws + c.length,
        w.calls ++ chunkCalls ipString draw w.draws c⟩
      (fun j hj => by
        have := hf (j + 1) (by simp; omega)
        rwa [show n + 1 + j = n + (j + 1) by omega])
      (fun c' hc' => hnd c' (List.mem_cons_of_mem _ hc'))
    refine ⟨vars1, ?_⟩
    rw [List.cons_append, chunkLoop, hf0, chunkBody_ok ipString draw vars w c hc]
    simp only []
    rw [h1]
    have e1 : n + 1 + pre.length = n + (c :: pre).length := by
      simp only [List.length_cons]; omega
    rw [e1]
    congr 1
    simp only [List.flatten_cons, records_append, upsertRows_append, List.length_append,
      passCalls, List.append_assoc, Nat.add_assoc]

/-- A pass of the chunk loop that meets no error. -/
theorem chunkLoop_ok {IP : Type} (ipString : IP → String) (draw : Nat → Fin 2)
    (fault : Nat → Fault) (cs : List (List IP)) (n : Nat) (vars : BatchVars) (w : World)
    (hf : ∀ j, j < cs.length → fault (n + j) = Fault.ok)
    (hnd : ∀ c ∈ cs, (c.map ipString).Nodup) :
    chunkLoop ipString draw fault cs n vars w =
      (Exit.returned,
        ⟨upsertRows w.rows (records ipString draw w.draws cs.flatten),
          w.draws + cs.flatten.length,
          w.calls ++ passCalls ipString draw w.draws cs⟩) := by
  obtain ⟨vars1, h⟩ := chunkLoop_append ipString draw fault [] cs n vars w hf hnd
  rw [List.append_nil] at h
  rw [h, chunkLoop]

/-- The chunk loop stops at the first chunk that meets an error. -/
theorem chunkLoop_fail {IP : Type} (ipString : IP → String) (draw : Nat → Fin 2)
    (fault : Nat → Fault) (c : List IP) (rest : List (List IP)) (n : Nat) (vars : BatchVars)
    (w : World) (h : fault n ≠ Fault.ok ∨ ¬ (c.map ipString).Nodup) :
    chunkLoop ipString draw fault (c :: rest) n vars w =
      (Exit.fatal, (chunkBody ipString draw (fault n) vars w c).2.2) := by
  have h1 := (chunkBody_fail ipString draw (fault n) vars w c h).1
  rw [chunkLoop]
  rcases hb : chunkBody ipString draw (fault n) vars w c with ⟨e, v, w1⟩
  rw [hb] at h1
  simp only at h1
  subst h1
  rfl

/-- A serial pass that meets no error. -/
theorem serialLoop_ok {IP : Type} (ipString : IP → String) (draw : Nat → Fin 2)
    (fails : Nat → Bool) (ips : List IP) :
    ∀ (n : Nat) (w : World), (∀ j, j < ips.length → fails (n + j) = false) →
      serialLoop ipString draw fails ips n w =
        (Exit.returned,
          ⟨upsertRows w.rows (records ipString draw w.draws ips), w.draws + ips.length,
            w.calls ++ serialCalls (records ipString draw w.draws ips)⟩) := by
  induction ips with
  | nil => intro n w _; simp [serialLoop, records, serialCalls, upsertRows_nil]
  | cons ip rest ih =>
    intro n w hf
    have hf0 : fails n = false := by simpa using hf 0 (by simp)
    have hrest : ∀ j, j < rest.length → fails (n + 1 + j) = false := fun j hj => by
      have := hf (j + 1) (by simp; omega)
      rwa [show n + 1 + j = n + (j + 1) by omega]
    simp only [serialLoop, hf0, Bool.false_eq_true, if_false]
    rw [ih (n + 1) _ hrest]
    simp only [records, upsertRows_cons, serialCalls, List.map_cons, List.length_cons,
      List.append_assoc, List.singleton_append]
    congr 2
    omega

/-- The statuses found after writing the records of a pass over distinct keys. -/
theorem statusOf_records {IP : Type} (ipString : IP → String) (draw : Nat → Fin 2)
    (st : Storage) (d : Nat) (ips : List IP) (hnd : (ips.map ipString).Nodup) :
    (∀ (j : Nat) (h : j < ips.length),
        statusOf (upsertRows st (records ipString draw d ips)) (ipString ips[j]) =
          some (statuses (draw (d + j)))) ∧
      (∀ k, k ∉ ips.map ipString →
        statusOf (upsertRows st (records ipString draw d ips)) k = statusOf st k) := by
  constructor
  · intro j h
    apply statusOf_upsertRows_mem
    · rw [records_keys]; exact hnd
    · have h1 := records_getElem? ipString draw ips d j
      rw [List.getElem?_eq_getElem h] at h1
      exact List.getElem?_mem h1
  · intro k hk
    apply statusOf_upsertRows_not_mem
    rw [records_keys]; exact hk

theorem specLengths_length (M N : Nat) (hM : 0 < M) :
    (specLengths M N).length = (N + M - 1) / M := by
  have hdm := Nat.div_add_mod N M
  have hlt := Nat.mod_lt N hM
  have hcomm : M * (N / M) = N / M * M := Nat.mul_comm _ _
  symm
  by_cases hr : N % M = 0
  · simp only [specLengths, hr, if_true, List.append_nil, List.length_replicate]
    apply Nat.div_eq_of_lt_le
    · omega
    · rw [Nat.add_mul]; omega
  · simp only [specLengths, hr, if_false, List.length_append, List.length_replicate,
      List.length_singleton]
    apply Nat.div_eq_of_lt_le
    · rw [Nat.add_mul]; omega
    · rw [Nat.add_mul, Nat.add_mul]; omega

theorem specLengths_bounds (M N : Nat) (hM : 0 < M) :
    ∀ x ∈ specLengths M N, 0 < x ∧ x ≤ M := by
  intro x hx
  simp only [specLengths, List.mem_append, List.mem_replicate] at hx
  rcases hx with ⟨_, rfl⟩ | hx
  · exact ⟨hM, le_refl _⟩
  · by_cases hr : N % M = 0
    · simp [hr] at hx
    · simp only [hr, if_false, List.mem_singleton] at hx
      subst hx
      exact ⟨Nat.pos_of_ne_zero hr, Nat.le_of_lt (Nat.mod_lt N hM)⟩

theorem specLengths_le (M N : Nat) (hN : 0 < N) (hle : N ≤ M) : specLengths M N = [N] := by
  rcases Nat.lt_or_eq_of_le hle with h | h
  · exact specLengths_small M N hN h
  · subst h
    simp [specLengths, Nat.div_self hN]

/-! ## Lemmas on concurrent runs -/

theorem settled_symm {IP : Type} (ipString : IP → String) (draw1 draw2 : Nat → Fin 2)
    (rows0 rows : Storage) (d1 d2 : List IP)
    (h : Settled ipString draw1 draw2 rows0 rows d1 d2) :
    Settled ipString draw2 draw1 rows0 rows d2 d1 := by
  intro k
  rcases h k with ⟨h1, h2, h3⟩ | ⟨s, hs, hm⟩
  · exact Or.inl ⟨h1, h3, h2⟩
  · exact Or.inr ⟨s, hs, hm.symm⟩

/-- Writing the next chunk of the first worker keeps the storage settled. -/
theorem settled_write {IP : Type} (ipString : IP → String) (draw1 draw2 : Nat → Fin 2)
    (rows0 rows : Storage) (d1 d2 c : List IP) (hc : (c.map ipString).Nodup)
    (h : Settled ipString draw1 draw2 rows0 rows d1 d2) :
    Settled ipString draw1 draw2 rows0
      (upsertRows rows (records ipString draw1 d1.length c)) (d1 ++ c) d2 := by
  intro k
  have happ : records ipString draw1 0 (d1 ++ c) =
      records ipString draw1 0 d1 ++ records ipString draw1 d1.length c := by
    rw [records_append, Nat.zero_add]
  by_cases hk : k ∈ c.map ipString
  · rw [← records_keys ipString draw1 c d1.length] at hk
    obtain ⟨r, hr, rfl⟩ := List.mem_map.mp hk
    refine Or.inr ⟨r.2, ?_, Or.inl ?_⟩
    · exact statusOf_upsertRows_mem _ _ _ _ (by rw [records_keys]; exact hc) hr
    · rw [happ]; exact List.mem_append_right _ hr
  · rw [statusOf_upsertRows_not_mem _ _ _ (by rw [records_keys]; exact hk)]
    rcases h k with ⟨h1, h2, h3⟩ | ⟨s, hs, hm⟩
    · refine Or.inl ⟨h1, ?_, h3⟩
      rw [List.map_append, List.mem_append]
      exact fun hor => hor.elim h2 hk
    · refine Or.inr ⟨s, hs, ?_⟩
      rcases hm with hm | hm
      · exact Or.inl (by rw [happ]; exact List.mem_append_left _ hm)
      · exact Or.inr hm

theorem goroutine_step_nil {IP : Type} (ipString : IP → String) (draw : Nat → Fin 2)
    (fault : Nat → Fault) (g : Goroutine IP) (rows : Storage) (calls : List DbCall)
    (hg : g.chunks = []) :
    g.step ipString draw fault rows calls = (Exit.returned, g, rows, calls) := by
  simp only [Goroutine.step, hg]

theorem goroutine_step_ok {IP : Type} (ipString : IP → String) (draw : Nat → Fin 2)
    (fault : Nat → Fault) (g : Goroutine IP) (rows : Storage) (calls : List DbCall)
    (c : List IP) (rest : List (List IP)) (hg : g.chunks = c :: rest)
    (hf : fault g.n = Fault.ok) (hc : (c.map ipString).Nodup) :
    g.step ipString draw fault rows calls =
      (Exit.returned,
        ⟨rest, g.n + 1, ⟨tuplesFrom 0 c.length, flatArgs (records ipString draw g.draws c)⟩,
          g.draws + c.length⟩,
        upsertRows rows (records ipString draw g.draws c),
        calls ++ chunkCalls ipString draw g.draws c) := by
  simp only [Goroutine.step, hg, hf, chunkBody_ok ipString draw g.vars ⟨rows, g.draws, calls⟩ c hc]

theorem head_chunk_nodup {IP : Type} (ipString : IP → String) (ips d c : List IP)
    (rest : List (List IP)) (h : d ++ (c :: rest).flatten = ips)
    (hnd : (ips.map ipString).Nodup) : (c.map ipString).Nodup := by
  have hsub : c.Sublist ips := by
    rw [← h, List.flatten_cons]
    exact (List.sublist_append_left c _).trans (List.sublist_append_right d _)
  exact List.Nodup.sublist (hsub.map ipString) hnd

/-- One scheduling step without storage errors keeps the run invariant. -/
theorem step_runInv {IP : Type} (ipString : IP → String) (draw1 draw2 : Nat → Fin 2)
    (ips1 ips2 : List IP) (rows0 : Storage)
    (hnd1 : (ips1.map ipString).Nodup) (hnd2 : (ips2.map ipString).Nodup)
    (p : Proc IP) (d1 d2 : List IP) (b : Bool)
    (h : RunInv ipString draw1 draw2 ips1 ips2 rows0 p d1 d2) :
    ∃ e1 e2, RunInv ipString draw1 draw2 ips1 ips2 rows0
      (Proc.step ipString draw1 draw2 (fun _ => Fault.ok) (fun _ => Fault.ok) p b) e1 e2 := by
  obtain ⟨hex, h1, hd1, h2, hd2, hs⟩ := h
  cases b with
  | true =>
    cases hg : p.g1.chunks with
    | nil =>
      refine ⟨d1, d2, ?_⟩
      simp only [RunInv, Proc.step, hex, Bool.false_eq_true, if_false, if_true,
        goroutine_step_nil ipString draw1 (fun _ => Fault.ok) p.g1 p.rows p.calls hg]
      exact ⟨by decide, h1, hd1, h2, hd2, hs⟩
    | cons c rest =>
      rw [hg] at h1
      have hc := head_chunk_nodup ipString ips1 d1 c rest h1 hnd1
      refine ⟨d1 ++ c, d2, ?_⟩
      simp only [RunInv, Proc.step, hex, Bool.false_eq_true, if_false, if_true,
        goroutine_step_ok ipString draw1 (fun _ => Fault.ok) p.g1 p.rows p.calls c rest hg rfl hc]
      refine ⟨by decide, ?_, ?_, h2, hd2, ?_⟩
      · rw [List.append_assoc, ← List.flatten_cons]; exact h1
      · rw [hd1, List.length_append]
      · rw [hd1]; exact settled_write ipString draw1 draw2 rows0 p.rows d1 d2 c hc hs
  | false =>
    cases hg : p.g2.chunks with
    | nil =>
      refine ⟨d1, d2, ?_⟩
      simp only [RunInv, Proc.step, hex, Bool.false_eq_true, if_false,
        goroutine_step_nil ipString draw2 (fun _ => Fault.ok) p.g2 p.rows p.calls hg]
      exact ⟨by decide, h1, hd1, h2, hd2, hs⟩
    | cons c rest =>
      rw [hg] at h2
      have hc := head_chunk_nodup ipString ips2 d2 c rest h2 hnd2
      refine ⟨d1, d2 ++ c, ?_⟩
      simp only [RunInv, Proc.step, hex, Bool.false_eq_true, if_false,
        goroutine_step_ok ipString draw2 (fun _ => Fault.ok) p.g2 p.rows p.calls c rest hg rfl hc]
      refine ⟨by decide, h1, hd1, ?_, ?_, ?_⟩
      · rw [List.append_assoc, ← List.flatten_cons]; exact h2
      · rw [hd2, List.length_append]
      · rw [hd2]
        exact settled_symm ipString draw2 draw1 rows0 _ _ _
          (settled_write ipString draw2 draw1 rows0 p.rows d2 d1 c hc
            (settled_symm ipString draw1 draw2 rows0 _ _ _ hs))

/-- Every run without storage errors keeps the run invariant. -/
theorem run_runInv {IP : Type} (ipString : IP → String) (draw1 draw2 : Nat → Fin 2)
    (ips1 ips2 : List IP) (rows0 : Storage)
    (hnd1 : (ips1.map ipString).Nodup) (hnd2 : (ips2.map ipString).Nodup)
    (sched : List Bool) :
    ∀ (p : Proc IP) (d1 d2 : List IP),
      RunInv ipString draw1 draw2 ips1 ips2 rows0 p d1 d2 →
      ∃ e1 e2, RunInv ipString draw1 draw2 ips1 ips2 rows0
        (Proc.run ipString draw1 draw2 (fun _ => Fault.ok) (fun _ => Fault.ok) p sched)
        e1 e2 := by
  induction sched with
  | nil => intro p d1 d2 h; exact ⟨d1, d2, h⟩
  | cons b sched ih =>
    intro p d1 d2 h
    obtain ⟨e1, e2, h1⟩ := step_runInv ipString draw1 draw2 ips1 ips2 rows0 hnd1 hnd2 p d1 d2 b h
    exact ih _ e1 e2 h1

theorem mem_records_key {IP : Type} (ipString : IP → String) (draw : Nat → Fin 2)
    (d : Nat) (ips : List IP) (k s : String) (h : (k, s) ∈ records ipString draw d ips) :
    k ∈ ips.map ipString := by
  rw [← records_keys ipString draw ips d]
  exact List.mem_map_of_mem Prod.fst h

theorem mem_records_of_done {IP : Type} (ipString : IP → String) (draw : Nat → Fin 2)
    (e rest : List IP) (r : Row) (h : r ∈ records ipString draw 0 e) :
    r ∈ records ipString draw 0 (e ++ rest) := by
  rw [records_append]; exact List.mem_append_left _ h

theorem step_chunks {IP : Type} (ipString : IP → String) (draw1 draw2 : Nat → Fin 2)
    (fault1 fault2 : Nat → Fault) (p : Proc IP) (hex : p.exited = false) :
    ((Proc.step ipString draw1 draw2 fault1 fault2 p true).g1.chunks = p.g1.chunks.tail ∧
      (Proc.step ipString draw1 draw2 fault1 fault2 p true).g2.chunks = p.g2.chunks) ∧
    ((Proc.step ipString draw1 draw2 fault1 fault2 p false).g1.chunks = p.g1.chunks ∧
      (Proc.step ipString draw1 draw2 fault1 fault2 p false).g2.chunks = p.g2.chunks.tail) := by
  refine ⟨⟨?_, ?_⟩, ⟨?_, ?_⟩⟩
  · cases hg : p.g1.chunks <;> simp [Proc.step, Goroutine.step, hex, hg]
  · simp [Proc.step, hex]
  · simp [Proc.step, hex]
  · cases hg : p.g2.chunks <;> simp [Proc.step, Goroutine.step, hex, hg]

/-- Scheduling one goroutine as many times as it has chunks left empties its
chunk list and leaves the other goroutine's chunk list alone. -/
theorem run_drain {IP : Type} (ipString : IP → String) (draw1 draw2 : Nat → Fin 2)
    (ips1 ips2 : List IP) (rows0 : Storage)
    (hnd1 : (ips1.map ipString).Nodup) (hnd2 : (ips2.map ipString).Nodup) (b : Bool) :
    ∀ (n : Nat) (p : Proc IP) (d1 d2 : List IP),
      RunInv ipString draw1 draw2 ips1 ips2 rows0 p d1 d2 →
      (if b then p.g1.chunks else p.g2.chunks).length = n →
      (∃ e1 e2, RunInv ipString draw1 draw2 ips1 ips2 rows0
        (Proc.run ipString draw1 draw2 (fun _ => Fault.ok) (fun _ => Fault.ok) p
          (List.replicate n b)) e1 e2) ∧
      (if b then
        (Proc.run ipString draw1 draw2 (fun _ => Fault.ok) (fun _ => Fault.ok) p
          (List.replicate n b)).g1.chunks
      else
        (Proc.run ipString draw1 draw2 (fun _ => Fault.ok) (fun _ => Fault.ok) p
          (List.replicate n b)).g2.chunks) = [] ∧
      (if b then
        (Proc.run ipString draw1 draw2 (fun _ => Fault.ok) (fun _ => Fault.ok) p
          (List.replicate n b)).g2.chunks
      else
        (Proc.run ipString draw1 draw2 (fun _ => Fault.ok) (fun _ => Fault.ok) p
          (List.replicate n b)).g1.chunks) = (if b then p.g2.chunks else p.g1.chunks) := by
  intro n
  induction n with
  | zero =>
    intro p d1 d2 h hn
    refine ⟨⟨d1, d2, h⟩, ?_, rfl⟩
    simpa [Proc.run] using List.length_eq_zero.mp hn
  | succ n ih =>
    intro p d1 d2 h hn
    obtain ⟨e1, e2, h1⟩ := step_runInv ipString draw1 draw2 ips1 ips2 rows0 hnd1 hnd2 p d1 d2 b h
    have hc := step_chunks ipString draw1 draw2 (fun _ => Fault.ok) (fun _ => Fault.ok) p h.1
    have hlen : (if b then
        (Proc.step ipString draw1 draw2 (fun _ => Fault.ok) (fun _ => Fault.ok) p b).g1.chunks
      else
        (Proc.step ipString draw1 draw2 (fun _ => Fault.ok) (fun _ => Fault.ok) p b).g2.chunks).length
        = n := by
      cases b with
      | true => simp only [if_true] at hn ⊢; rw [hc.1.1, List.length_tail, hn]; rfl
      | false =>
        simp only [Bool.false_eq_true, if_false] at hn ⊢
        rw [hc.2.2, List.length_tail, hn]; rfl
    obtain ⟨hinv, hempty, hother⟩ := ih _ e1 e2 h1 hlen
    refine ⟨hinv, hempty, ?_⟩
    rw [List.replicate_succ, Proc.run, hother]
    cases b with
    | true => simp only [if_true]; exact hc.1.2
    | false => simp only [Bool.false_eq_true, if_false]; exact hc.2.1

theorem run_append {IP : Type} (ipString : IP → String) (draw1 draw2 : Nat → Fin 2)
    (fault1 fault2 : Nat → Fault) (s1 s2 : List Bool) :
    ∀ (p : Proc IP), Proc.run ipString draw1 draw2 fault1 fault2 p (s1 ++ s2) =
      Proc.run ipString draw1 draw2 fault1 fault2
        (Proc.run ipString draw1 draw2 fault1 fault2 p s1) s2 := by
  induction s1 with
  | nil => intro p; rfl
  | cons b s1 ih =>
    intro p
    show Proc.run ipString draw1 draw2 fault1 fault2 p (b :: (s1 ++ s2)) = _
    rw [Proc.run, ih, Proc.run]

theorem run_exited {IP : Type} (ipString : IP → String) (draw1 draw2 : Nat → Fin 2)
    (fault1 fault2 : Nat → Fault) (sched : List Bool) :
    ∀ (p : Proc IP), p.exited = true →
      Proc.run ipString draw1 draw2 fault1 fault2 p sched = p := by
  induction sched with
  | nil => intro p _; rfl
  | cons b sched ih =>
    intro p hex
    have hstep : Proc.step ipString draw1 draw2 fault1 fault2 p b = p := by
      simp [Proc.step, hex]
    rw [Proc.run, hstep]
    exact ih p hex

theorem tuplesFrom_eq_map_range (n : Nat) :
    tuplesFrom 0 n = (List.range n).map (fun i => (⟨i * 2 + 1, i * 2 + 2⟩ : Placeholder)) := by
  induction n with
  | zero => rfl
  | succ n ih =>
    rw [tuplesFrom_succ_last, ih, List.range_succ, List.map_append]
    simp

theorem statuses_mem (x : Fin 2) : statuses x = "online" ∨ statuses x = "offline" := by
  fin_cases x
  · exact Or.inl rfl
  · exact Or.inr rfl

theorem txExec_mem_chunkBody {IP : Type} (ipString : IP → String) (draw : Nat → Fin 2)
    (f : Fault) (vars : BatchVars) (w : World) (c : List IP) (hf : f ≠ Fault.begin) :
    DbCall.txExec (scanQuery (tuplesFrom 0 c.length))
        (flatArgs (records ipString draw w.draws c)) ∈
      (chunkBody ipString draw f vars w c).2.2.calls := by
  simp only [chunkBody, buildChunk_eq, hf, if_false]
  split
  · simp
  · split <;> simp

/-! ## The claims -/

/-- C1: for every key sequence and every positive chunk size, the partition
loop of `useBatchImplementationHandler` returns, and its chunks, concatenated in
the order they were appended, are the key sequence itself. -/
theorem partition_concat {α : Type} (M : Nat) (hM : 0 < M) (ips : List α) :
    ∃ ipChunks, partition M ips = some ipChunks ∧ ipChunks.flatten = ips := by
  obtain ⟨cs, h1, h2, _, _⟩ := partition_spec M hM ips
  exact ⟨cs, h1, h2⟩

/-- Witness of C1 with seven keys and chunk size three. -/
theorem partition_concat_witness :
    0 < 3 ∧ ∃ ipChunks, partition 3 [10, 11, 12, 13, 14, 15, 16] = some ipChunks ∧
      ipChunks.flatten = [10, 11, 12, 13, 14, 15, 16] :=
  ⟨by decide, partition_concat 3 (by decide) [10, 11, 12, 13, 14, 15, 16]⟩

/-- C2: for `N` keys and a positive chunk size `M` the partition loop returns
`N / M` chunks of length `M` followed, only when `N % M ≠ 0`, by one chunk of
length `N % M`; so there are `ceil(N / M)` chunks, each non-empty and of length
at most `M`, none when `N = 0`, and exactly the whole sequence when `0 < N ≤ M`. -/
theorem partition_lengths {α : Type} (M : Nat) (hM : 0 < M) (ips : List α) :
    ∃ ipChunks, partition M ips = some ipChunks ∧
      ipChunks.map List.length =
        List.replicate (ips.length / M) M ++
          (if ips.length % M = 0 then [] else [ips.length % M]) ∧
      ipChunks.length = (ips.length + M - 1) / M ∧
      (∀ c ∈ ipChunks, 0 < c.length ∧ c.length ≤ M) ∧
      (ips.length = 0 → ipChunks = []) ∧
      (0 < ips.length → ips.length ≤ M → ipChunks = [ips]) := by
  obtain ⟨cs, h1, h2, h3, _⟩ := partition_spec M hM ips
  refine ⟨cs, h1, h3, ?_, ?_, ?_, ?_⟩
  · have h := congrArg List.length h3
    rw [List.length_map] at h
    rw [h, specLengths_length M _ hM]
  · intro c hc
    exact specLengths_bounds M ips.length hM c.length (h3 ▸ List.mem_map_of_mem _ hc)
  · intro h0
    have h := congrArg List.length h3
    rw [h0, specLengths_zero, List.length_map] at h
    exact List.length_eq_zero.mp h
  · intro h0 hle
    rw [specLengths_le M _ h0 hle] at h3
    obtain ⟨c, rfl⟩ : ∃ c, cs = [c] := by
      cases cs with
      | nil => simp at h3
      | cons c t =>
        cases t with
        | nil => exact ⟨c, rfl⟩
        | cons _ _ => simp at h3
    simpa using h2

/-- Witness of C2: seven keys in chunks of three give lengths `[3, 3, 1]`, and
five keys in chunks of ten give one chunk of length five. -/
theorem partition_lengths_witness :
    (0 < 3 ∧ ∃ ipChunks, partition 3 [10, 11, 12, 13, 14, 15, 16] = some ipChunks ∧
      ipChunks.map List.length = [3, 3, 1]) ∧
    (0 < 10 ∧ ∃ ipChunks, partition 10 [10, 11, 12, 13, 14] = some ipChunks ∧
      ipChunks.map List.length = [5]) := by
  refine ⟨⟨by decide, ?_⟩, ⟨by decide, ?_⟩⟩
  · obtain ⟨cs, h1, h2, _⟩ := partition_lengths 3 (by decide) [10, 11, 12, 13, 14, 15, 16]
    exact ⟨cs, h1, by simpa using h2⟩
  · obtain ⟨cs, h1, h2, _⟩ := partition_lengths 10 (by decide) [10, 11, 12, 13, 14]
    exact ⟨cs, h1, by simpa using h2⟩

/-- A batch pass over pairwise distinct keys that meets no error returns, and
has written the records of the pass. -/
theorem batch_pass_ok {IP : Type} (M : Nat) (hM : 0 < M) (ipString : IP → String)
    (draw : Nat → Fin 2) (ips : List IP) (w : World) (hnd : (ips.map ipString).Nodup) :
    ∃ ipChunks, partition M ips = some ipChunks ∧
      useBatchImplementationHandler M ipString draw (fun _ => Fault.ok) ips w =
        some (Exit.returned,
          ⟨upsertRows w.rows (records ipString draw w.draws ips), w.draws + ips.length,
            w.calls ++ passCalls ipString draw w.draws ipChunks⟩) := by
  obtain ⟨cs, h1, h2, _, h4⟩ := partition_spec M hM ips
  refine ⟨cs, h1, ?_⟩
  have hcs : ∀ c ∈ cs, (c.map ipString).Nodup := fun c hc =>
    List.Nodup.sublist ((h4 c hc).map ipString) hnd
  simp only [useBatchImplementationHandler, h1]
  rw [chunkLoop_ok ipString draw (fun _ => Fault.ok) cs 0 ⟨[], []⟩ w (fun _ _ => rfl) hcs, h2]

/-- A serial pass that meets no error returns, and has written the records of the pass. -/
theorem serial_pass_ok {IP : Type} (ipString : IP → String) (draw : Nat → Fin 2)
    (ips : List IP) (w : World) :
    useSerialImplementationHandler ipString draw (fun _ => false) ips w =
      (Exit.returned,
        ⟨upsertRows w.rows (records ipString draw w.draws ips), w.draws + ips.length,
          w.calls ++ serialCalls (records ipString draw w.draws ips)⟩) :=
  serialLoop_ok ipString draw (fun _ => false) ips 0 w (fun _ _ => rfl)

/-- C3: after a batch pass, and likewise after a serial pass, over pairwise
distinct keys in which every storage call succeeds, key number `j` of the
sequence is stored with the status drawn for it in that pass, whatever was stored
before, and the status of every key outside the sequence is unchanged. -/
theorem pass_stores_drawn_statuses {IP : Type} (M : Nat) (hM : 0 < M) (ipString : IP → String)
    (draw : Nat → Fin 2) (ips : List IP) (w : World) (hnd : (ips.map ipString).Nodup) :
    (∃ w1, useBatchImplementationHandler M ipString draw (fun _ => Fault.ok) ips w =
        some (Exit.returned, w1) ∧
      (∀ (j : Nat) (h : j < ips.length),
        statusOf w1.rows (ipString ips[j]) = some (statuses (draw (w.draws + j)))) ∧
      (∀ k, k ∉ ips.map ipString → statusOf w1.rows k = statusOf w.rows k)) ∧
    (∃ w2, useSerialImplementationHandler ipString draw (fun _ => false) ips w =
        (Exit.returned, w2) ∧
      (∀ (j : Nat) (h : j < ips.length),
        statusOf w2.rows (ipString ips[j]) = some (statuses (draw (w.draws + j)))) ∧
      (∀ k, k ∉ ips.map ipString → statusOf w2.rows k = statusOf w.rows k)) := by
  have hst := statusOf_records ipString draw w.rows w.draws ips hnd
  constructor
  · obtain ⟨cs, _, h⟩ := batch_pass_ok M hM ipString draw ips w hnd
    exact ⟨_, h, hst.1, hst.2⟩
  · exact ⟨_, serial_pass_ok ipString draw ips w, hst.1, hst.2⟩

/-- Witness of C3: `K1` is stored as online, and a pass that draws offline for
it leaves it stored as offline, by the batch handler and by the serial one. -/
theorem pass_stores_drawn_statuses_witness :
    (0 < 2 ∧ (["K1"].map (fun (s : String) => s)).Nodup) ∧
    (∃ w1, useBatchImplementationHandler 2 (fun (s : String) => s) (fun _ => 1)
        (fun _ => Fault.ok) ["K1"] ⟨[("K1", "online")], 0, []⟩ = some (Exit.returned, w1) ∧
      statusOf w1.rows "K1" = some "offline") ∧
    (∃ w2, useSerialImplementationHandler (fun (s : String) => s) (fun _ => 1)
        (fun _ => false) ["K1"] ⟨[("K1", "online")], 0, []⟩ = (Exit.returned, w2) ∧
      statusOf w2.rows "K1" = some "offline") := by
  have hnd : (["K1"].map (fun (s : String) => s)).Nodup := by decide
  obtain ⟨⟨w1, h1, h2, _⟩, ⟨w2, h3, h4, _⟩⟩ :=
    pass_stores_drawn_statuses 2 (by decide) (fun (s : String) => s) (fun _ => 1) ["K1"]
      ⟨[("K1", "online")], 0, []⟩ hnd
  exact ⟨⟨by decide, hnd⟩, ⟨w1, h1, h2 0 (by decide)⟩, ⟨w2, h3, h4 0 (by decide)⟩⟩

/-- C4: for every storage state and every chunk of records with pairwise
distinct keys, the chunk's multi-row upsert succeeds, and executing it a second
time with the same argument list leaves the storage as the first execution left it. -/
theorem upsert_twice_eq_once (st : Storage) (rows : List Row)
    (hnd : (rows.map Prod.fst).Nodup) :
    ∃ st1, execUpsert st (tuplesFrom 0 rows.length) (flatArgs rows) = some st1 ∧
      execUpsert st1 (tuplesFrom 0 rows.length) (flatArgs rows) = some st1 := by
  have hb : boundRows (tuplesFrom 0 rows.length) (flatArgs rows) = some rows := by
    simpa using boundRows_tuplesFrom rows 0 [] (by simp)
  refine ⟨upsertRows st rows, ?_, ?_⟩
  · simp [execUpsert, hb, hnd]
  · simp [execUpsert, hb, hnd, upsertRows_idem st rows hnd]

/-- Witness of C4 on a storage that holds one of the two keys of the chunk. -/
theorem upsert_twice_eq_once_witness :
    ([("K1", "online"), ("K2", "offline")].map Prod.fst).Nodup ∧
    ∃ st1, execUpsert [("K2", "online")] (tuplesFrom 0 2)
        (flatArgs [("K1", "online"), ("K2", "offline")]) = some st1 ∧
      execUpsert st1 (tuplesFrom 0 2) (flatArgs [("K1", "online"), ("K2", "offline")]) =
        some st1 :=
  ⟨by decide,
    upsert_twice_eq_once [("K2", "online")] [("K1", "online"), ("K2", "offline")] (by decide)⟩

/-- C5: `no two rows share a key` is kept by the single-row upsert of the serial
handler and by every chunk transaction of the batch handler; hence after a full
serial or batch pass over pairwise distinct keys, started on a storage without
repeated keys, the storage has no repeated key and holds exactly one row for
each key of the sequence. -/
theorem no_two_rows_share_a_key {IP : Type} (M : Nat) (hM : 0 < M) (ipString : IP → String)
    (draw : Nat → Fin 2) (ips : List IP) (w : World) (hst : NoDupKeys w.rows)
    (hnd : (ips.map ipString).Nodup) :
    (∀ k sIns sUpd, NoDupKeys (upsertRow w.rows k sIns sUpd)) ∧
    (∀ (f : Fault) (vars : BatchVars) (c : List IP),
      NoDupKeys (chunkBody ipString draw f vars w c).2.2.rows) ∧
    (∃ w1, useBatchImplementationHandler M ipString draw (fun _ => Fault.ok) ips w =
        some (Exit.returned, w1) ∧ NoDupKeys w1.rows ∧
      ∀ ip ∈ ips, (keysOf w1.rows).count (ipString ip) = 1) ∧
    (∃ w2, useSerialImplementationHandler ipString draw (fun _ => false) ips w =
        (Exit.returned, w2) ∧ NoDupKeys w2.rows ∧
      ∀ ip ∈ ips, (keysOf w2.rows).count (ipString ip) = 1) := by
  have hrows : NoDupKeys (upsertRows w.rows (records ipString draw w.draws ips)) :=
    NoDupKeys_upsertRows _ _ hst
  have hcount : ∀ ip ∈ ips,
      (keysOf (upsertRows w.rows (records ipString draw w.draws ips))).count (ipString ip) = 1 := by
    intro ip hip
    apply List.count_eq_one_of_mem hrows
    rw [mem_keysOf_upsertRows, records_keys]
    exact Or.inr (List.mem_map_of_mem _ hip)
  refine ⟨fun k a b => NoDupKeys_upsertRow _ _ _ _ hst, ?_, ?_, ?_⟩
  · intro f vars c
    by_cases h : f ≠ Fault.ok ∨ ¬ (c.map ipString).Nodup
    · rw [(chunkBody_fail ipString draw f vars w c h).2.1]; exact hst
    · have hf : f = Fault.ok := by
        by_contra hne; exact h (Or.inl hne)
      have hc : (c.map ipString).Nodup := by
        by_contra hne; exact h (Or.inr hne)
      rw [hf, chunkBody_ok ipString draw vars w c hc]
      exact NoDupKeys_upsertRows _ _ hst
  · obtain ⟨cs, _, h⟩ := batch_pass_ok M hM ipString draw ips w hnd
    exact ⟨_, h, hrows, hcount⟩
  · exact ⟨_, serial_pass_ok ipString draw ips w, hrows, hcount⟩

/-- Witness of C5: three keys written in chunks of two on an empty storage. -/
theorem no_two_rows_share_a_key_witness :
    (0 < 2 ∧ NoDupKeys [] ∧ (["K1", "K2", "K3"].map (fun (s : String) => s)).Nodup) ∧
    (∃ w1, useBatchImplementationHandler 2 (fun (s : String) => s) (fun _ => 0)
        (fun _ => Fault.ok) ["K1", "K2", "K3"] ⟨[], 0, []⟩ = some (Exit.returned, w1) ∧
      NoDupKeys w1.rows ∧ ∀ ip ∈ ["K1", "K2", "K3"], (keysOf w1.rows).count ip = 1) := by
  have hst : NoDupKeys [] := by decide
  have hnd : (["K1", "K2", "K3"].map (fun (s : String) => s)).Nodup := by decide
  exact ⟨⟨by decide, hst, hnd⟩,
    (no_two_rows_share_a_key 2 (by decide) (fun (s : String) => s) (fun _ => 0)
      ["K1", "K2", "K3"] ⟨[], 0, []⟩ hst hnd).2.2.1⟩

/-- C6: when chunk number `k` of a batch pass meets an error (at `db.Begin`, at
`tx.Exec`, or at `tx.Commit`) after the `k` chunks before it were committed, the
pass ends in `log.Fatal`, the stored rows are those reached by committing the
chunks before `k` in order, and exactly `k + 1` transactions were begun, so no
later chunk was attempted. -/
theorem failed_chunk_stops_pass {IP : Type} (M : Nat) (ipString : IP → String)
    (draw : Nat → Fin 2) (fault : Nat → Fault) (ips : List IP) (w : World)
    (pre : List (List IP)) (c : List IP) (post : List (List IP))
    (hp : partition M ips = some (pre ++ c :: post))
    (hok : ∀ j, j < pre.length → fault j = Fault.ok)
    (hpre : ∀ c1 ∈ pre, (c1.map ipString).Nodup)
    (hfail : fault pre.length ≠ Fault.ok) :
    ∃ w1, useBatchImplementationHandler M ipString draw fault ips w = some (Exit.fatal, w1) ∧
      w1.rows = (chunkLoop ipString draw (fun _ => Fault.ok) pre 0 ⟨[], []⟩ w).2.rows ∧
      w1.rows = upsertRows w.rows (records ipString draw w.draws pre.flatten) ∧
      w1.calls.count DbCall.begin = w.calls.count DbCall.begin + (pre.length + 1) := by
  obtain ⟨vars1, h1⟩ := chunkLoop_append ipString draw fault (c :: post) pre 0 ⟨[], []⟩ w
    (fun j hj => by simpa using hok j hj) hpre
  have hf : fault (0 + pre.length) ≠ Fault.ok := by simpa using hfail
  rw [chunkLoop_fail ipString draw fault c post _ vars1 _ (Or.inl hf)] at h1
  have hb := chunkBody_fail ipString draw (fault (0 + pre.length)) vars1
    ⟨upsertRows w.rows (records ipString draw w.draws pre.flatten),
      w.draws + pre.flatten.length, w.calls ++ passCalls ipString draw w.draws pre⟩ c (Or.inl hf)
  refine ⟨_, by simp only [useBatchImplementationHandler, hp, h1], ?_, hb.2.1, ?_⟩
  · rw [hb.2.1, chunkLoop_ok ipString draw (fun _ => Fault.ok) pre 0 ⟨[], []⟩ w
      (fun _ _ => rfl) hpre]
  · rw [hb.2.2, List.count_append, passCalls_count_begin]; omega

/-- Witness of C6: three keys in chunks of two; the commit of chunk 1 fails, so
only the two keys of chunk 0 are stored. -/
theorem failed_chunk_stops_pass_witness :
    (partition 2 ["K1", "K2", "K3"] = some ([["K1", "K2"]] ++ ["K3"] :: []) ∧
      (∀ j, j < [["K1", "K2"]].length →
        (fun n => if n = 1 then Fault.commit else Fault.ok) j = Fault.ok) ∧
      (∀ c1 ∈ [["K1", "K2"]], (c1.map (fun (s : String) => s)).Nodup) ∧
      (fun n => if n = 1 then Fault.commit else Fault.ok) [["K1", "K2"]].length ≠ Fault.ok) ∧
    ∃ w1, useBatchImplementationHandler 2 (fun (s : String) => s) (fun _ => 0)
        (fun n => if n = 1 then Fault.commit else Fault.ok) ["K1", "K2", "K3"] ⟨[], 0, []⟩ =
          some (Exit.fatal, w1) ∧
      w1.rows = [("K1", "online"), ("K2", "online")] ∧
      w1.calls.count DbCall.begin = 2 := by
  have h1 : partition 2 ["K1", "K2", "K3"] = some ([["K1", "K2"]] ++ ["K3"] :: []) := by decide
  have h2 : ∀ j, j < [["K1", "K2"]].length →
      (fun n => if n = 1 then Fault.commit else Fault.ok) j = Fault.ok := by decide
  have h3 : ∀ c1 ∈ [["K1", "K2"]], (c1.map (fun (s : String) => s)).Nodup := by decide
  have h4 : (fun n => if n = 1 then Fault.commit else Fault.ok) [["K1", "K2"]].length ≠
      Fault.ok := by decide
  obtain ⟨w1, e1, _, e3, e4⟩ :=
    failed_chunk_stops_pass 2 (fun (s : String) => s) (fun _ => 0)
      (fun n => if n = 1 then Fault.commit else Fault.ok) ["K1", "K2", "K3"] ⟨[], 0, []⟩
      [["K1", "K2"]] ["K3"] [] h1 h2 h3 h4
  exact ⟨⟨h1, h2, h3, h4⟩, w1, e1, by rw [e3]; decide, by rw [e4]; rfl⟩

/-- C7: two workers write the same key space (pairwise distinct keys, each
worker in its own order and with its own draws) as atomic chunk transactions
that all succeed. Some schedule lets both finish; under every schedule the
process does not exit and keys outside the key space keep the status they had,
if any; and once both workers have finished, every key of the key space is stored
with the status that worker 1 or worker 2 assigned to it. -/
theorem concurrent_final_statuses {IP : Type} (M : Nat) (hM : 0 < M) (ipString : IP → String)
    (draw1 draw2 : Nat → Fin 2) (ips1 ips2 : List IP) (rows0 : Storage)
    (hperm : ips2.Perm ips1) (hnd : (ips1.map ipString).Nodup) :
    ∃ p0, launch M ips1 ips2 rows0 = some p0 ∧
      (∃ sched, (Proc.run ipString draw1 draw2 (fun _ => Fault.ok) (fun _ => Fault.ok)
        p0 sched).finished) ∧
      ∀ sched,
        (Proc.run ipString draw1 draw2 (fun _ => Fault.ok) (fun _ => Fault.ok)
          p0 sched).exited = false ∧
        (∀ k, k ∉ ips1.map ipString →
          statusOf (Proc.run ipString draw1 draw2 (fun _ => Fault.ok) (fun _ => Fault.ok)
            p0 sched).rows k = statusOf rows0 k) ∧
        ((Proc.run ipString draw1 draw2 (fun _ => Fault.ok) (fun _ => Fault.ok)
            p0 sched).finished →
          ∀ k ∈ ips1.map ipString, ∃ s,
            statusOf (Proc.run ipString draw1 draw2 (fun _ => Fault.ok) (fun _ => Fault.ok)
              p0 sched).rows k = some s ∧
            ((k, s) ∈ records ipString draw1 0 ips1 ∨
              (k, s) ∈ records ipString draw2 0 ips2)) := by
  obtain ⟨cs1, hp1, hj1, _, _⟩ := partition_spec M hM ips1
  obtain ⟨cs2, hp2, hj2, _, _⟩ := partition_spec M hM ips2
  have hnd2 : (ips2.map ipString).Nodup := (hperm.map ipString).nodup_iff.mpr hnd
  have hinv0 : RunInv ipString draw1 draw2 ips1 ips2 rows0
      ⟨rows0, [], ⟨cs1, 0, ⟨[], []⟩, 0⟩, ⟨cs2, 0, ⟨[], []⟩, 0⟩, false⟩ [] [] :=
    ⟨rfl, by simpa using hj1, rfl, by simpa using hj2, rfl,
      fun k => Or.inl ⟨rfl, by simp, by simp⟩⟩
  refine ⟨⟨rows0, [], ⟨cs1, 0, ⟨[], []⟩, 0⟩, ⟨cs2, 0, ⟨[], []⟩, 0⟩, false⟩, ?_, ?_, ?_⟩
  · simp only [launch, hp1, hp2]
  · refine ⟨List.replicate cs1.length true ++ List.replicate cs2.length false, ?_⟩
    rw [run_append]
    obtain ⟨⟨e1, e2, hinv1⟩, hempty1, hother1⟩ :=
      run_drain ipString draw1 draw2 ips1 ips2 rows0 hnd hnd2 true cs1.length _ [] [] hinv0
        (by simp)
    simp only [if_true] at hempty1 hother1
    obtain ⟨_, hempty2, hother2⟩ :=
      run_drain ipString draw1 draw2 ips1 ips2 rows0 hnd hnd2 false cs2.length _ e1 e2 hinv1
        (by simp [hother1])
    simp only [Bool.false_eq_true, if_false] at hempty2 hother2
    exact ⟨by rw [hother2, hempty1], hempty2⟩
  · intro sched
    obtain ⟨e1, e2, hex, h1, _, h2, _, hs⟩ :=
      run_runInv ipString draw1 draw2 ips1 ips2 rows0 hnd hnd2 sched _ [] [] hinv0
    have hsub1 : ∀ k, k ∈ e1.map ipString → k ∈ ips1.map ipString := by
      intro k hk
      rw [← h1, List.map_append]
      exact List.mem_append_left _ hk
    have hsub2 : ∀ k, k ∈ e2.map ipString → k ∈ ips1.map ipString := by
      intro k hk
      rw [← (hperm.map ipString).mem_iff, ← h2, List.map_append]
      exact List.mem_append_left _ hk
    have hmem1 : ∀ r, r ∈ records ipString draw1 0 e1 → r ∈ records ipString draw1 0 ips1 := by
      intro r hr
      rw [← h1]
      exact mem_records_of_done ipString draw1 e1 _ r hr
    have hmem2 : ∀ r, r ∈ records ipString draw2 0 e2 → r ∈ records ipString draw2 0 ips2 := by
      intro r hr
      rw [← h2]
      exact mem_records_of_done ipString draw2 e2 _ r hr
    refine ⟨hex, ?_, ?_⟩
    · intro k hk
      rcases hs k with ⟨h, _, _⟩ | ⟨s, _, hm | hm⟩
      · exact h
      · exact absurd (hsub1 k (mem_records_key ipString draw1 0 e1 k s hm)) hk
      · exact absurd (hsub2 k (mem_records_key ipString draw2 0 e2 k s hm)) hk
    · intro hfin k hk
      have he1 : e1 = ips1 := by
        rw [← h1, hfin.1]; simp
      rcases hs k with ⟨_, hn, _⟩ | ⟨s, hst, hm⟩
      · exact absurd (he1 ▸ hk) hn
      · exact ⟨s, hst, hm.imp (hmem1 _) (hmem2 _)⟩

/-- Witness of C7: two keys written in chunks of one by both workers, worker 2
in the reverse order. -/
theorem concurrent_final_statuses_witness :
    (0 < 1 ∧ ["K2", "K1"].Perm ["K1", "K2"] ∧
      (["K1", "K2"].map (fun (s : String) => s)).Nodup) ∧
    ∃ p0, launch 1 ["K1", "K2"] ["K2", "K1"] [] = some p0 ∧
      (∃ sched, (Proc.run (fun (s : String) => s) (fun _ => 0) (fun _ => 1)
        (fun _ => Fault.ok) (fun _ => Fault.ok) p0 sched).finished) := by
  have hperm : ["K2", "K1"].Perm ["K1", "K2"] := List.Perm.swap "K1" "K2" []
  have hnd : (["K1", "K2"].map (fun (s : String) => s)).Nodup := by decide
  obtain ⟨p0, h1, h2, _⟩ :=
    concurrent_final_statuses 1 (by decide) (fun (s : String) => s) (fun _ => 0) (fun _ => 1)
      ["K1", "K2"] ["K2", "K1"] [] hperm hnd
  exact ⟨⟨by decide, hperm, hnd⟩, p0, h1, h2⟩

/-- C8, the code at a failing input: with two keys and a shuffle that swaps
them, case 4 of `main` passes the same swapped sequence to both handler calls,
because `ips2 := ips` shares the backing array that `rand.Shuffle` permutes. -/
theorem mainCase4_passes_same_sequence :
    mainCase4 (fun _ => 0) ["K1", "K2"] = (["K2", "K1"], ["K2", "K1"]) := by
  decide

/-- C9 as stated fails: worker 1 meets an error on its chunk, and although
worker 2 is then scheduled twice, the process has exited, the chunk of worker 2
is still unwritten and the storage is empty. -/
theorem sibling_does_not_continue :
    (Proc.run (fun (s : String) => s) (fun _ => 0) (fun _ => 0) (fun _ => Fault.exec)
        (fun _ => Fault.ok) twoWorkersOneKey [true, false, false]).exited = true ∧
    (Proc.run (fun (s : String) => s) (fun _ => 0) (fun _ => 0) (fun _ => Fault.exec)
        (fun _ => Fault.ok) twoWorkersOneKey [true, false, false]).g2.chunks = [["K1"]] ∧
    (Proc.run (fun (s : String) => s) (fun _ => 0) (fun _ => 0) (fun _ => Fault.exec)
        (fun _ => Fault.ok) twoWorkersOneKey [true, false, false]).rows = [] ∧
    launch 1 ["K1"] ["K1"] [] = some twoWorkersOneKey := by
  decide

/-- C9 amended: when the chunk transaction of either worker meets an error,
`log.Fatal` exits the whole process: the stored rows are unchanged by that
chunk, the sibling worker is left as it was, and under every further schedule
nothing changes any more, so the sibling writes none of its remaining chunks. -/
theorem fatal_exits_whole_process {IP : Type} (ipString : IP → String)
    (draw1 draw2 : Nat → Fin 2) (fault1 fault2 : Nat → Fault) (p : Proc IP) (b : Bool)
    (c : List IP) (rest : List (List IP)) (hex : p.exited = false)
    (hg : (if b then p.g1.chunks else p.g2.chunks) = c :: rest)
    (hf : (if b then fault1 p.g1.n else fault2 p.g2.n) ≠ Fault.ok) :
    (Proc.step ipString draw1 draw2 fault1 fault2 p b).exited = true ∧
      (Proc.step ipString draw1 draw2 fault1 fault2 p b).rows = p.rows ∧
      (if b then (Proc.step ipString draw1 draw2 fault1 fault2 p b).g2.chunks = p.g2.chunks
        else (Proc.step ipString draw1 draw2 fault1 fault2 p b).g1.chunks = p.g1.chunks) ∧
      ∀ sched,
        Proc.run ipString draw1 draw2 fault1 fault2
          (Proc.step ipString draw1 draw2 fault1 fault2 p b) sched =
        Proc.step ipString draw1 draw2 fault1 fault2 p b := by
  have hexit : (Proc.step ipString draw1 draw2 fault1 fault2 p b).exited = true ∧
      (Proc.step ipString draw1 draw2 fault1 fault2 p b).rows = p.rows := by
    cases b with
    | true =>
      simp only [if_true] at hg hf
      have hb := chunkBody_fail ipString draw1 (fault1 p.g1.n) p.g1.vars
        ⟨p.rows, p.g1.draws, p.calls⟩ c (Or.inl hf)
      simp only [Proc.step, hex, Bool.false_eq_true, if_false, if_true, Goroutine.step, hg]
      exact ⟨by simp [hb.1], hb.2.1⟩
    | false =>
      simp only [Bool.false_eq_true, if_false] at hg hf
      have hb := chunkBody_fail ipString draw2 (fault2 p.g2.n) p.g2.vars
        ⟨p.rows, p.g2.draws, p.calls⟩ c (Or.inl hf)
      simp only [Proc.step, hex, Bool.false_eq_true, if_false, Goroutine.step, hg]
      exact ⟨by simp [hb.1], hb.2.1⟩
  have hc := step_chunks ipString draw1 draw2 fault1 fault2 p hex
  refine ⟨hexit.1, hexit.2, ?_, fun sched => run_exited ipString draw1 draw2 fault1 fault2 sched _ hexit.1⟩
  cases b with
  | true => simp only [if_true]; exact hc.1.2
  | false => simp only [Bool.false_eq_true, if_false]; exact hc.2.1

/-- Witness of C9 amended: worker 1 of the two-worker process on the key
sequence `["K1"]` meets an error at `tx.Exec`. -/
theorem fatal_exits_whole_process_witness :
    (twoWorkersOneKey.exited = false ∧
      (if true then twoWorkersOneKey.g1.chunks else twoWorkersOneKey.g2.chunks) =
        ["K1"] :: [] ∧
      (if true then (fun _ => Fault.exec) twoWorkersOneKey.g1.n
        else (fun _ => Fault.ok) twoWorkersOneKey.g2.n) ≠ Fault.ok) ∧
    (Proc.step (fun (s : String) => s) (fun _ => 0) (fun _ => 0) (fun _ => Fault.exec)
        (fun _ => Fault.ok) twoWorkersOneKey true).exited = true ∧
    (Proc.step (fun (s : String) => s) (fun _ => 0) (fun _ => 0) (fun _ => Fault.exec)
        (fun _ => Fault.ok) twoWorkersOneKey true).rows = [] := by
  have h1 : twoWorkersOneKey.exited = false := rfl
  have h2 : (if true then twoWorkersOneKey.g1.chunks else twoWorkersOneKey.g2.chunks) =
      ["K1"] :: [] := rfl
  have h3 : (if true then (fun _ => Fault.exec) twoWorkersOneKey.g1.n
      else (fun _ => Fault.ok) twoWorkersOneKey.g2.n) ≠ Fault.ok := by decide
  obtain ⟨e1, e2, _, _⟩ :=
    fatal_exits_whole_process (fun (s : String) => s) (fun _ => 0) (fun _ => 0)
      (fun _ => Fault.exec) (fun _ => Fault.ok) twoWorkersOneKey true ["K1"] [] h1 h2 h3
  exact ⟨⟨h1, h2, h3⟩, e1, e2⟩

/-- C10: the statement built for a chunk of `n` keys has the `n` tuples
`($2i+1,$2i+2)`, `i = 0, ..., n - 1`, joined by commas, and `2n` arguments:
argument `2i` is the string form of key `i` and argument `2i+1` is the status
drawn for it, online or offline. Parameter `$j` refers to argument `j - 1`, so
tuple `i` binds key `i` to its own status; the variables left by the previous
chunk play no part; and this statement is the one passed to `tx.Exec`. -/
theorem statement_of_chunk {IP : Type} (ipString : IP → String) (draw : Nat → Fin 2)
    (vars : BatchVars) (w : World) (ipChunk : List IP) :
    ∃ ps vs, buildChunk ipString draw vars ipChunk w.draws = (⟨ps, vs⟩, w.draws + ipChunk.length) ∧
      ps.length = ipChunk.length ∧
      (∀ i, i < ipChunk.length → ps[i]? = some ⟨i * 2 + 1, i * 2 + 2⟩) ∧
      scanQuery ps =
        "INSERT INTO ip_statuses (ip, status) VALUES " ++
          ",".intercalate ((List.range ipChunk.length).map
            (fun i => "($" ++ toString (i * 2 + 1) ++ ",$" ++ toString (i * 2 + 2) ++ ")")) ++
          " ON CONFLICT ON CONSTRAINT ip_statuses_pkey DO UPDATE SET status = excluded.status" ∧
      vs.length = 2 * ipChunk.length ∧
      (∀ (i : Nat) (h : i < ipChunk.length),
        vs[2 * i]? = some (ipString ipChunk[i]) ∧
        vs[2 * i + 1]? = some (statuses (draw (w.draws + i))) ∧
        (vs[2 * i + 1]? = some "online" ∨ vs[2 * i + 1]? = some "offline") ∧
        param vs (i * 2 + 1) = some (ipString ipChunk[i]) ∧
        param vs (i * 2 + 2) = some (statuses (draw (w.draws + i)))) ∧
      (∀ j, 0 < j → param vs j = vs[j - 1]?) ∧
      boundRows ps vs = some (records ipString draw w.draws ipChunk) ∧
      buildChunk ipString draw vars ipChunk w.draws = buildChunk ipString draw ⟨[], []⟩ ipChunk w.draws ∧
      (∀ f, f ≠ Fault.begin →
        DbCall.txExec (scanQuery ps) vs ∈ (chunkBody ipString draw f vars w ipChunk).2.2.calls) := by
  have hargs : ∀ (i : Nat) (h : i < ipChunk.length),
      (flatArgs (records ipString draw w.draws ipChunk))[2 * i]? = some (ipString ipChunk[i]) ∧
      (flatArgs (records ipString draw w.draws ipChunk))[2 * i + 1]? =
        some (statuses (draw (w.draws + i))) := by
    intro i h
    rw [flatArgs_getElem?_even, flatArgs_getElem?_odd, records_getElem?,
      List.getElem?_eq_getElem h]
    exact ⟨rfl, rfl⟩
  refine ⟨tuplesFrom 0 ipChunk.length, flatArgs (records ipString draw w.draws ipChunk),
    buildChunk_eq ipString draw vars ipChunk w.draws, tuplesFrom_length _ _, ?_, ?_, ?_, ?_, ?_, ?_,
    ?_, ?_⟩
  · intro i hi
    simpa using tuplesFrom_getElem? ipChunk.length 0 i hi
  · rw [scanQuery, tuplesFrom_eq_map_range, List.map_map]
    rfl
  · rw [flatArgs_length, records_length]
  · intro i h
    obtain ⟨h1, h2⟩ := hargs i h
    have e1 : i * 2 + 1 - 1 = 2 * i := by omega
    have e2 : i * 2 + 2 - 1 = 2 * i + 1 := by omega
    refine ⟨h1, h2, ?_, ?_, ?_⟩
    · rw [h2]
      exact (statuses_mem (draw (w.draws + i))).imp (congrArg some) (congrArg some)
    · simp only [param, Nat.add_one_ne_zero, if_false, e1, h1]
    · have hne : i * 2 + 2 ≠ 0 := by omega
      simp only [param, hne, if_false, e2, h2]
  · intro j hj
    have hne : j ≠ 0 := by omega
    simp only [param, hne, if_false]
  · have h := boundRows_tuplesFrom (records ipString draw w.draws ipChunk) 0 [] (by simp)
    rw [records_length] at h
    simpa using h
  · rw [buildChunk_eq, buildChunk_eq]
  · intro f hf
    exact txExec_mem_chunkBody ipString draw f vars w ipChunk hf

end Scanner
